import Mathlib

/-!
Verification of the in-memory region-cache engine (MVCC snapshot reads and
the bidirectional MVCC iterator of `components/in_memory_engine/src/read.rs`)
and of the region worker (`components/raftstore/src/store/worker/region.rs`).

Byte strings are modelled as `List Nat` with lexicographic order; an internal
skiplist record `(user_key, sequence, value_type, value)` is an `Entry`; the
skiplist contents are a list of entries sorted by the internal-key order
(user key ascending, then sequence descending).
-/

namespace IME

/-- Byte strings (user keys, values, bounds). -/
abbrev Bytes := List Nat

/-- Lexicographic strict order on byte strings, as `bytes::Bytes`/`&[u8]`
comparison in Rust. -/
def bytesLt : Bytes → Bytes → Bool
  | _, [] => false
  | [], _ :: _ => true
  | a :: as, b :: bs =>
    if a < b then true
    else if b < a then false
    else bytesLt as bs

/-- Lexicographic `≤` on byte strings. -/
def bytesLe (a b : Bytes) : Bool := !(bytesLt b a)

theorem bytesLt_irrefl (a : Bytes) : bytesLt a a = false := by
  induction a with
  | nil => rfl
  | cons x xs ih => simp [bytesLt, ih]

theorem bytesLt_trichotomy (a b : Bytes) :
    bytesLt a b = true ∨ a = b ∨ bytesLt b a = true := by
  induction a generalizing b with
  | nil =>
    cases b with
    | nil => exact Or.inr (Or.inl rfl)
    | cons y ys => exact Or.inl rfl
  | cons x xs ih =>
    cases b with
    | nil => exact Or.inr (Or.inr rfl)
    | cons y ys =>
      rcases Nat.lt_trichotomy x y with h | h | h
      · left; simp [bytesLt, h]
      · subst h
        rcases ih ys with h2 | h2 | h2
        · left; simp [bytesLt, h2]
        · subst h2; exact Or.inr (Or.inl rfl)
        · right; right; simp [bytesLt, h2]
      · right; right; simp [bytesLt, h]

theorem bytesLt_asymm {a b : Bytes} (h : bytesLt a b = true) :
    bytesLt b a = false := by
  induction a generalizing b with
  | nil =>
    cases b with
    | nil => simp [bytesLt] at h
    | cons y ys => rfl
  | cons x xs ih =>
    cases b with
    | nil => simp [bytesLt] at h
    | cons y ys =>
      by_cases hxy : x < y
      · simp [bytesLt, hxy, Nat.lt_asymm hxy, Nat.ne_of_lt hxy,
          Nat.not_lt.mpr (Nat.le_of_lt hxy)]
      · by_cases hyx : y < x
        · simp [bytesLt, hxy, hyx] at h
        · have hxy' : x = y := Nat.le_antisymm (Nat.not_lt.mp hyx) (Nat.not_lt.mp hxy)
          subst hxy'
          simp only [bytesLt, if_neg (lt_irrefl x)] at h ⊢
          simpa using ih h

theorem bytesLt_ne {a b : Bytes} (h : bytesLt a b = true) : a ≠ b := by
  intro he; subst he; rw [bytesLt_irrefl] at h; exact Bool.noConfusion h

theorem bytesLt_trans {a b c : Bytes} (h1 : bytesLt a b = true)
    (h2 : bytesLt b c = true) : bytesLt a c = true := by
  induction a generalizing b c with
  | nil =>
    cases c with
    | nil =>
      cases b with
      | nil => exact h1
      | cons y ys => simp [bytesLt] at h2
    | cons z zs => rfl
  | cons x xs ih =>
    cases b with
    | nil => simp [bytesLt] at h1
    | cons y ys =>
      cases c with
      | nil => simp [bytesLt] at h2
      | cons z zs =>
        rcases Nat.lt_trichotomy x y with hxy | hxy | hxy
        · rcases Nat.lt_trichotomy y z with hyz | hyz | hyz
          · have : x < z := Nat.lt_trans hxy hyz
            simp [bytesLt, this]
          · subst hyz; simp [bytesLt, hxy]
          · simp [bytesLt, Nat.lt_asymm hyz, hyz] at h2
        · subst hxy
          rcases Nat.lt_trichotomy x z with hxz | hxz | hxz
          · simp [bytesLt, hxz]
          · subst hxz
            simp only [bytesLt, if_neg (lt_irrefl x)] at h1 h2 ⊢
            exact ih h1 h2
          · simp [bytesLt, Nat.lt_asymm hxz, hxz] at h2
        · simp [bytesLt, Nat.lt_asymm hxy, hxy] at h1

theorem bytesLe_refl (a : Bytes) : bytesLe a a = true := by
  simp [bytesLe, bytesLt_irrefl]

theorem bytesLe_iff {a b : Bytes} :
    bytesLe a b = true ↔ bytesLt a b = true ∨ a = b := by
  constructor
  · intro h
    rcases bytesLt_trichotomy a b with h1 | h1 | h1
    · exact Or.inl h1
    · exact Or.inr h1
    · simp [bytesLe, h1] at h
  · intro h
    rcases h with h | h
    · simp [bytesLe, bytesLt_asymm h]
    · subst h; exact bytesLe_refl a

theorem bytesLe_of_lt {a b : Bytes} (h : bytesLt a b = true) : bytesLe a b = true :=
  bytesLe_iff.mpr (Or.inl h)

theorem bytesLt_of_not_le {a b : Bytes} (h : ¬ bytesLe a b = true) :
    bytesLt b a = true := by
  simpa [bytesLe] using h

theorem bytesNot_lt_of_le {a b : Bytes} (h : bytesLe a b = true) :
    bytesLt b a = false := by
  simpa [bytesLe] using h

theorem bytesLe_trans {a b c : Bytes} (h1 : bytesLe a b = true)
    (h2 : bytesLe b c = true) : bytesLe a c = true := by
  rcases bytesLe_iff.mp h1 with h1 | h1
  · rcases bytesLe_iff.mp h2 with h2 | h2
    · exact bytesLe_of_lt (bytesLt_trans h1 h2)
    · subst h2; exact bytesLe_of_lt h1
  · subst h1; exact h2

theorem bytesLt_of_lt_of_le {a b c : Bytes} (h1 : bytesLt a b = true)
    (h2 : bytesLe b c = true) : bytesLt a c = true := by
  rcases bytesLe_iff.mp h2 with h2 | h2
  · exact bytesLt_trans h1 h2
  · subst h2; exact h1

theorem bytesLt_of_le_of_lt {a b c : Bytes} (h1 : bytesLe a b = true)
    (h2 : bytesLt b c = true) : bytesLt a c = true := by
  rcases bytesLe_iff.mp h1 with h1 | h1
  · exact bytesLt_trans h1 h2
  · subst h1; exact h2

theorem bytesLe_antisymm {a b : Bytes} (h1 : bytesLe a b = true)
    (h2 : bytesLe b a = true) : a = b := by
  rcases bytesLe_iff.mp h1 with h | h
  · exact absurd (bytesNot_lt_of_le h2) (by simp [h])
  · exact h

theorem bytesLe_total (a b : Bytes) : bytesLe a b = true ∨ bytesLe b a = true := by
  rcases bytesLt_trichotomy a b with h | h | h
  · exact Or.inl (bytesLe_of_lt h)
  · exact Or.inl (bytesLe_iff.mpr (Or.inr h))
  · exact Or.inr (bytesLe_of_lt h)

/-! ### Internal records

`keys.rs` (the encoded-key codec) is not part of the provided sources; its
behaviour is modelled from the spec: an internal key is the user key followed
by an 8-byte big-endian encoding of `MAX_SEQ - sequence` (so higher sequences
sort earlier for the same user key) and a value-type tag.  We model the
decoded form directly: a record is `(user_key, sequence, value_type, value)`
and the skiplist holds records sorted by user key ascending, then sequence
descending. -/

/-- `ValueType` from `keys.rs` (modelled from the spec: `Value` or `Deletion`;
the internal value is empty for a `Deletion`). -/
inductive VType where
  | deletion : VType
  | value : VType
deriving DecidableEq, Repr

/-- A decoded internal record of the skiplist. -/
structure Entry where
  userKey : Bytes
  seq : Nat
  vType : VType
  val : Bytes
deriving DecidableEq, Repr

/-- `MAX_SEQUENCE_NUMBER` from `read.rs`: `(1 << 56) - 1`. -/
def MAX_SEQUENCE_NUMBER : Nat := 2 ^ 56 - 1

/-- Modelled from the spec: only 7 bytes are available for a sequence number
inside an encoded internal key, so a seek sequence is effectively capped at
`MAX_SEQUENCE_NUMBER` (`encode_seek_for_prev_key(k, u64::MAX)` encodes the
same bytes as sequence `MAX_SEQUENCE_NUMBER`). -/
def clampSeq (s : Nat) : Nat := min s MAX_SEQUENCE_NUMBER

/-- Strict order on records induced by the lexicographic order of encoded
internal keys (user key ascending, then sequence descending); records of a
well-formed store have pairwise distinct `(user_key, seq)`, so the value-type
tag never decides the order. -/
def entLt (e f : Entry) : Prop :=
  bytesLt e.userKey f.userKey = true ∨ (e.userKey = f.userKey ∧ f.seq < e.seq)

instance : DecidableRel entLt := fun e f => by
  unfold entLt; infer_instance

/-- The skiplist contents: records sorted by internal-key order. -/
def SortedEntries (L : List Entry) : Prop := List.Pairwise entLt L

instance (L : List Entry) : Decidable (SortedEntries L) := by
  unfold SortedEntries; infer_instance

/-- All stored sequence numbers fit in 7 bytes (an invariant of the engine:
sequences come from RocksDB and are below `MAX_SEQUENCE_NUMBER`). -/
def WfSeqs (L : List Entry) : Prop := ∀ e ∈ L, e.seq < MAX_SEQUENCE_NUMBER

instance (L : List Entry) : Decidable (WfSeqs L) := by
  unfold WfSeqs; infer_instance

instance {ε α : Type} [DecidableEq ε] [DecidableEq α] :
    DecidableEq (Except ε α) := fun a b =>
  match a, b with
  | .ok x, .ok y =>
    if h : x = y then .isTrue (by rw [h])
    else .isFalse (fun hc => h (Except.ok.inj hc))
  | .error x, .error y =>
    if h : x = y then .isTrue (by rw [h])
    else .isFalse (fun hc => h (Except.error.inj hc))
  | .ok _, .error _ => .isFalse (fun hc => Except.noConfusion hc)
  | .error _, .ok _ => .isFalse (fun hc => Except.noConfusion hc)

/-- Total accessor for the record at index `i`. -/
def entAt (L : List Entry) (i : Nat) : Entry := L.getD i ⟨[], 0, .value, []⟩

theorem entAt_eq_get {L : List Entry} {i : Nat} (h : i < L.length) :
    entAt L i = L.get ⟨i, h⟩ := by
  simp [entAt, List.getD, List.getElem?_eq_getElem h, List.get_eq_getElem]

theorem sorted_entLt {L : List Entry} (hs : SortedEntries L) {i j : Nat}
    (hij : i < j) (hj : j < L.length) : entLt (entAt L i) (entAt L j) := by
  have hi : i < L.length := lt_trans hij hj
  rw [entAt_eq_get hi, entAt_eq_get hj]
  exact List.pairwise_iff_get.mp hs ⟨i, hi⟩ ⟨j, hj⟩ hij

/-- User keys are non-decreasing along a sorted store. -/
theorem sorted_uk_le {L : List Entry} (hs : SortedEntries L) {i j : Nat}
    (hij : i ≤ j) (hj : j < L.length) :
    bytesLe (entAt L i).userKey (entAt L j).userKey = true := by
  rcases Nat.lt_or_ge i j with h | h
  · rcases sorted_entLt hs h hj with h' | ⟨h', _⟩
    · exact bytesLe_of_lt h'
    · exact bytesLe_iff.mpr (Or.inr h')
  · have : i = j := Nat.le_antisymm hij h
    subst this; exact bytesLe_refl _

/-- Within one user key, sequences are strictly decreasing along the store. -/
theorem sorted_seq_lt {L : List Entry} (hs : SortedEntries L) {i j : Nat}
    (hij : i < j) (hj : j < L.length)
    (huk : (entAt L i).userKey = (entAt L j).userKey) :
    (entAt L j).seq < (entAt L i).seq := by
  rcases sorted_entLt hs hij hj with h' | ⟨_, h'⟩
  · exact absurd huk (bytesLt_ne h')
  · exact h'

/-- A group of equal user keys is contiguous in a sorted store. -/
theorem sorted_group_contiguous {L : List Entry} (hs : SortedEntries L)
    {i j k : Nat} (h1 : i ≤ j) (h2 : j ≤ k) (hk : k < L.length)
    (huk : (entAt L i).userKey = (entAt L k).userKey) :
    (entAt L j).userKey = (entAt L i).userKey := by
  have le1 := sorted_uk_le hs h1 (by omega)
  have le2 := sorted_uk_le hs h2 hk
  rw [huk] at le1 ⊢
  exact bytesLe_antisymm le2 le1

/-! ### Index search over a list (the skiplist seek primitives) -/

/-- Index of the first element satisfying `p` (the skiplist `seek`). -/
def findFirstIdx (p : Entry → Bool) : List Entry → Option Nat
  | [] => none
  | e :: rest => if p e then some 0 else (findFirstIdx p rest).map (· + 1)

/-- Index of the last element satisfying `p` (the skiplist `seek_for_prev`). -/
def findLastIdx (p : Entry → Bool) : List Entry → Option Nat
  | [] => none
  | e :: rest =>
    match findLastIdx p rest with
    | some i => some (i + 1)
    | none => if p e then some 0 else none

theorem findFirstIdx_some {p : Entry → Bool} {L : List Entry} {i : Nat}
    (h : findFirstIdx p L = some i) :
    i < L.length ∧ p (entAt L i) = true ∧ ∀ j < i, p (entAt L j) = false := by
  induction L generalizing i with
  | nil => simp [findFirstIdx] at h
  | cons e rest ih =>
    by_cases hp : p e
    · simp [findFirstIdx, hp] at h
      subst h
      exact ⟨Nat.succ_pos _, by simpa [entAt] using hp, by omega⟩
    · simp [findFirstIdx, hp] at h
      obtain ⟨i', hi', rfl⟩ := h
      obtain ⟨h1, h2, h3⟩ := ih hi'
      refine ⟨by simpa using Nat.succ_lt_succ h1, by simpa [entAt] using h2, ?_⟩
      intro j hj
      cases j with
      | zero => simpa [entAt] using hp
      | succ j' => simpa [entAt] using h3 j' (by omega)

theorem findFirstIdx_none {p : Entry → Bool} {L : List Entry}
    (h : findFirstIdx p L = none) :
    ∀ j < L.length, p (entAt L j) = false := by
  induction L with
  | nil => intro j hj; simp at hj
  | cons e rest ih =>
    by_cases hp : p e
    · simp [findFirstIdx, hp] at h
    · simp [findFirstIdx, hp] at h
      intro j hj
      cases j with
      | zero => simpa [entAt] using hp
      | succ j' => simpa [entAt] using ih h j' (by simpa using Nat.lt_of_succ_lt_succ hj)

theorem findFirstIdx_isSome {p : Entry → Bool} {L : List Entry} {j : Nat}
    (hj : j < L.length) (hp : p (entAt L j) = true) :
    ∃ i, findFirstIdx p L = some i ∧ i ≤ j := by
  cases hfi : findFirstIdx p L with
  | some i =>
    refine ⟨i, rfl, ?_⟩
    by_contra hcon
    have h3 := (findFirstIdx_some hfi).2.2 j (by omega)
    rw [hp] at h3; exact Bool.noConfusion h3
  | none => exact absurd hp (by simp [findFirstIdx_none hfi j hj])

theorem findLastIdx_none {p : Entry → Bool} {L : List Entry}
    (h : findLastIdx p L = none) :
    ∀ j < L.length, p (entAt L j) = false := by
  induction L with
  | nil => intro j hj; simp at hj
  | cons e rest ih =>
    cases hrest : findLastIdx p rest with
    | some i' => simp [findLastIdx, hrest] at h
    | none =>
      by_cases hp : p e
      · simp [findLastIdx, hrest, hp] at h
      · intro j hj
        cases j with
        | zero => simpa [entAt] using hp
        | succ j' => simpa [entAt] using ih hrest j' (by simpa using Nat.lt_of_succ_lt_succ hj)

theorem findLastIdx_some {p : Entry → Bool} {L : List Entry} {i : Nat}
    (h : findLastIdx p L = some i) :
    i < L.length ∧ p (entAt L i) = true ∧
      ∀ j, i < j → j < L.length → p (entAt L j) = false := by
  induction L generalizing i with
  | nil => simp [findLastIdx] at h
  | cons e rest ih =>
    cases hrest : findLastIdx p rest with
    | some i' =>
      simp [findLastIdx, hrest] at h
      subst h
      obtain ⟨h1, h2, h3⟩ := ih hrest
      refine ⟨by simpa using Nat.succ_lt_succ h1, by simpa [entAt] using h2, ?_⟩
      intro j hj hjl
      cases j with
      | zero => omega
      | succ j' =>
        have := h3 j' (by omega) (by simpa using Nat.lt_of_succ_lt_succ hjl)
        simpa [entAt] using this
    | none =>
      by_cases hp : p e
      · simp [findLastIdx, hrest, hp] at h
        subst h
        refine ⟨Nat.succ_pos _, by simpa [entAt] using hp, ?_⟩
        intro j hj hjl
        cases j with
        | zero => omega
        | succ j' =>
          have := findLastIdx_none hrest j' (by simpa using Nat.lt_of_succ_lt_succ hjl)
          simpa [entAt] using this
      · simp [findLastIdx, hrest, hp] at h

theorem findLastIdx_isSome {p : Entry → Bool} {L : List Entry} {j : Nat}
    (hj : j < L.length) (hp : p (entAt L j) = true) :
    ∃ i, findLastIdx p L = some i ∧ j ≤ i := by
  cases hfi : findLastIdx p L with
  | some i =>
    refine ⟨i, rfl, ?_⟩
    by_contra hcon
    have h3 := (findLastIdx_some hfi).2.2 j (by omega) hj
    rw [hp] at h3; exact Bool.noConfusion h3
  | none => exact absurd hp (by simp [findLastIdx_none hfi j hj])

@[simp] theorem entAt_cons_zero (e : Entry) (rest : List Entry) :
    entAt (e :: rest) 0 = e := rfl

@[simp] theorem entAt_cons_succ (e : Entry) (rest : List Entry) (i : Nat) :
    entAt (e :: rest) (i + 1) = entAt rest i := rfl

/-! ### Seek keys

Modelled from the spec (§4.1, the encoded-key codec is not among the provided
sources): `encode_seek_key(k, s)` is the smallest internal key of user key `k`
whose decoded sequence is `≤ s`, so an entry sorts at-or-after it iff its user
key is larger than `k`, or equal with sequence `≤ s`;
`encode_seek_for_prev_key(k, s)` is the largest internal key of user key `k`
whose decoded sequence is `≥ s`, so an entry sorts at-or-before it iff its
user key is smaller than `k`, or equal with sequence `≥ s`.  Sequences are
clamped to the 7 bytes available in the encoding. -/

def seekGe (k : Bytes) (s : Nat) (e : Entry) : Bool :=
  bytesLt k e.userKey || (decide (e.userKey = k) && decide (clampSeq e.seq ≤ clampSeq s))

def sfpLe (k : Bytes) (s : Nat) (e : Entry) : Bool :=
  bytesLt e.userKey k || (decide (e.userKey = k) && decide (clampSeq s ≤ clampSeq e.seq))

/-- The skiplist iterator `seek(encode_seek_key(k, s))`: position of the first
record at-or-after the seek key. -/
def slSeek (L : List Entry) (k : Bytes) (s : Nat) : Option Nat :=
  findFirstIdx (seekGe k s) L

/-- The skiplist iterator `seek_for_prev(encode_seek_for_prev_key(k, s))`:
position of the last record at-or-before the seek key. -/
def slSeekForPrev (L : List Entry) (k : Bytes) (s : Nat) : Option Nat :=
  findLastIdx (sfpLe k s) L

theorem clamp_le_iff {a s : Nat} (ha : a < MAX_SEQUENCE_NUMBER) :
    (clampSeq a ≤ clampSeq s) = (a ≤ s) := by
  simp only [clampSeq]
  by_cases h : s ≤ MAX_SEQUENCE_NUMBER
  · simp [Nat.min_eq_left h, Nat.min_eq_left (Nat.le_of_lt ha)]
  · simp only [eq_iff_iff]
    constructor
    · intro _; omega
    · intro _
      have := Nat.min_le_right s MAX_SEQUENCE_NUMBER
      omega

/-! ### Snapshot point reads (`read.rs`) -/

/-- `CacheRegion` from `engine_traits` (modelled from the spec §3: a region is
`(id, epoch_version, start_key, end_key)`; `start ≤ k < end` is containment).
The Rust field `end` is `endK` here. -/
structure CacheRegion where
  id : Nat
  epoch_version : Nat
  start : Bytes
  endK : Bytes
deriving DecidableEq, Repr

/-- Modelled from the spec: `start_key ≤ k < end_key` defines containment. -/
def CacheRegion.contains_key (r : CacheRegion) (k : Bytes) : Bool :=
  bytesLe r.start k && bytesLt k r.endK

/-- Error type for the snapshot read surface (`engine_traits::Error`). -/
inductive EngineError where
  | BoundaryNotSet : EngineError
  | Other : String → EngineError
deriving DecidableEq, Repr

/-- `RegionCacheSnapshotMeta` from `read.rs`. -/
structure RegionCacheSnapshotMeta where
  region : CacheRegion
  snapshot_ts : Nat
  sequence_number : Nat
deriving DecidableEq, Repr

/-- `RegionCacheSnapshot::get_value_cf_opt` from `read.rs` (lines 174-212),
acting on the contents `L` of one column family's skiplist: reject keys
outside the region; otherwise seek to `encode_seek_key(key, seq_num)` and
return the value iff the record found still has user key `key` and is a
`Value`. -/
def get_value_cf_opt (meta : RegionCacheSnapshotMeta) (L : List Entry)
    (key : Bytes) : Except EngineError (Option Bytes) :=
  if ¬ meta.region.contains_key key then
    .error (.Other "key not in range")
  else
    match slSeek L key meta.sequence_number with
    | none => .ok none
    | some i =>
      let e := entAt L i
      if e.userKey = key ∧ e.vType = .value then .ok (some e.val) else .ok none

/-- Spec-side notion: the records of user key `k` visible at snapshot
sequence `s`, newest first (a sublist of the sorted store). -/
def visRecords (L : List Entry) (s : Nat) (k : Bytes) : List Entry :=
  L.filter (fun e => decide (e.userKey = k) && decide (e.seq ≤ s))

/-- Spec-side notion: the newest record of `k` visible at `s`. -/
def topVisible (L : List Entry) (s : Nat) (k : Bytes) : Option Entry :=
  (visRecords L s k).head?

/-- Spec-side notion: what a point read of `k` must observe at sequence `s`:
the value of the highest-sequence visible `Value` record, unless a visible
`Deletion` with a higher sequence shadows it. -/
def mvccGetSpec (L : List Entry) (s : Nat) (k : Bytes) : Option Bytes :=
  match topVisible L s k with
  | some e => if e.vType = .value then some e.val else none
  | none => none

/-- The `IterOptions` consumed by `iterator_opt`. -/
structure IterOptions where
  lower_bound : Option Bytes
  upper_bound : Option Bytes
  pfx_same_as_start : Bool
deriving DecidableEq, Repr

/-- `Direction` from `read.rs`. -/
inductive Direction where
  | Uninit : Direction
  | Forward : Direction
  | Backward : Direction
deriving DecidableEq, Repr

/-- `RegionCacheIterator` from `read.rs`.  `entries` is the column family's
skiplist contents and `pos` the owned skiplist iterator's position (`none`
when the underlying iterator is invalid); `usePfx` is
`prefix_extractor.is_some()` and `pfx` the cached seek prefix (statistics
fields are not modelled). -/
structure RegionCacheIterator where
  entries : List Entry
  pos : Option Nat
  valid : Bool
  lower_bound : Bytes
  upper_bound : Bytes
  sequence_number : Nat
  saved_user_key : Bytes
  saved_value : Option Bytes
  usePfx : Bool
  pfx : Option Bytes
  direction : Direction
deriving DecidableEq, Repr

/-- `RegionCacheSnapshot::iterator_opt` from `read.rs` (lines 121-164):
`BoundaryNotSet` without both bounds; an `Other` error when the bounds fall
outside the snapshot's region; otherwise a fresh (invalid, `Uninit`)
iterator. -/
def iterator_opt (meta : RegionCacheSnapshotMeta) (L : List Entry)
    (opts : IterOptions) : Except EngineError RegionCacheIterator :=
  match opts.lower_bound, opts.upper_bound with
  | some lower, some upper =>
    if bytesLt lower meta.region.start || bytesLt meta.region.endK upper then
      .error (.Other "the boundaries required exceed the range of the snapshot")
    else
      .ok { entries := L, pos := none, valid := false, lower_bound := lower,
            upper_bound := upper, sequence_number := meta.sequence_number,
            saved_user_key := [], saved_value := none,
            usePfx := opts.pfx_same_as_start, pfx := none,
            direction := .Uninit }
  | _, _ => .error .BoundaryNotSet

/-- If the first record's user key is already above `key`, no record of `key`
is in the (sorted) store. -/
theorem visRecords_nil_of_gt {e : Entry} {rest : List Entry} {key : Bytes}
    {s : Nat} (h : bytesLt key e.userKey = true)
    (hpw : ∀ f ∈ rest, entLt e f) :
    visRecords (e :: rest) s key = [] := by
  rw [visRecords, List.filter_eq_nil_iff]
  intro f hf
  have hne : f.userKey ≠ key := by
    rcases List.mem_cons.mp hf with rfl | hfr
    · exact fun hc => bytesLt_ne h hc.symm
    · rcases hpw f hfr with h' | ⟨h', _⟩
      · exact fun hc => bytesLt_ne (bytesLt_trans h h') hc.symm
      · rw [← h']; exact fun hc => bytesLt_ne h hc.symm
  simp [hne]

/-- Core of the point-read proof: the record found by
`seek(encode_seek_key(key, s))`, filtered as `get_value_cf_opt` does, is
exactly the MVCC-visible answer for `key`. -/
theorem slSeek_get_spec {L : List Entry} {key : Bytes} {s : Nat}
    (hs : SortedEntries L) (hwf : WfSeqs L) :
    (match slSeek L key s with
     | none => (none : Option Bytes)
     | some i =>
       if (entAt L i).userKey = key ∧ (entAt L i).vType = .value
       then some (entAt L i).val else none)
    = mvccGetSpec L s key := by
  induction L with
  | nil => rfl
  | cons e rest ih =>
    rcases List.pairwise_cons.mp hs with ⟨hpw, hs'⟩
    have hwf' : WfSeqs rest := fun f hf => hwf f (List.mem_cons_of_mem e hf)
    have hwfe : e.seq < MAX_SEQUENCE_NUMBER := hwf e (List.mem_cons_self e rest)
    by_cases hge : seekGe key s e = true
    · have hseek : slSeek (e :: rest) key s = some 0 := by
        simp [slSeek, findFirstIdx, hge]
      rw [hseek]
      by_cases huk : e.userKey = key
      · have hvis : e.seq ≤ s := by
          rw [seekGe, huk, bytesLt_irrefl] at hge
          simp only [Bool.false_or, Bool.and_eq_true, decide_eq_true_eq] at hge
          rw [← clamp_le_iff (s := s) hwfe]
          exact hge.2
        have hrec : visRecords (e :: rest) s key = e :: visRecords rest s key := by
          simp [visRecords, List.filter_cons, huk, hvis]
        simp only [mvccGetSpec, topVisible, hrec, List.head?_cons, entAt_cons_zero]
        rcases e.vType with _ | _ <;> simp [huk]
      · have hlt : bytesLt key e.userKey = true := by
          simp only [seekGe, Bool.or_eq_true, Bool.and_eq_true,
            decide_eq_true_eq] at hge
          rcases hge with h | ⟨h1, _⟩
          · exact h
          · exact absurd h1 huk
        have hrec := visRecords_nil_of_gt (s := s) hlt hpw
        simp [mvccGetSpec, topVisible, hrec, entAt_cons_zero, huk]
    · have hskip : e.userKey ≠ key ∨ ¬ e.seq ≤ s := by
        by_cases huk : e.userKey = key
        · right
          intro hle
          apply hge
          rw [seekGe, huk]
          have hcl : decide (clampSeq e.seq ≤ clampSeq s) = true := by
            rw [decide_eq_true_eq, clamp_le_iff hwfe]; exact hle
          simp [hcl]
        · exact Or.inl huk
      have hrec : visRecords (e :: rest) s key = visRecords rest s key := by
        rcases hskip with h | h <;> simp [visRecords, List.filter_cons, h]
      have hseek : slSeek (e :: rest) key s = (slSeek rest key s).map (· + 1) := by
        simp [slSeek, findFirstIdx, hge]
      rw [hseek]
      have ih' := ih hs' hwf'
      cases hrs : slSeek rest key s with
      | none =>
        rw [hrs] at ih'
        simpa [mvccGetSpec, topVisible, hrec] using ih'
      | some i =>
        rw [hrs] at ih'
        simpa [mvccGetSpec, topVisible, hrec] using ih'

/-- C1.  Point-read MVCC visibility: for a snapshot at sequence
`snap_seq` and a key inside the region, `get_value_cf_opt` returns the value
of the highest-sequence `Value` record with `seq ≤ snap_seq`, unless a
`Deletion` record with a strictly greater (still visible) sequence shadows
it, in which case it returns none; records with `seq > snap_seq` are never
observed. -/
theorem C1_point_read_mvcc_visibility (meta : RegionCacheSnapshotMeta)
    (L : List Entry) (key : Bytes) (hs : SortedEntries L) (hwf : WfSeqs L)
    (hin : meta.region.contains_key key = true) :
    get_value_cf_opt meta L key =
      .ok (mvccGetSpec L meta.sequence_number key) := by
  rw [get_value_cf_opt, if_neg (by simp [hin])]
  have h := @slSeek_get_spec L key meta.sequence_number hs hwf
  cases hseek : slSeek L key meta.sequence_number with
  | none => rw [hseek] at h; simp [← h]
  | some i =>
    rw [hseek] at h
    simp only [← h]
    by_cases hc : (entAt L i).userKey = key ∧ (entAt L i).vType = .value <;>
      simp [hc]

theorem C1_point_read_mvcc_visibility_witness :
    (get_value_cf_opt
        ⟨⟨1, 0, [], [9]⟩, 10, 5⟩
        [⟨[1], 6, .value, [100]⟩, ⟨[1], 3, .value, [101]⟩,
         ⟨[2], 5, .deletion, []⟩, ⟨[2], 2, .value, [102]⟩]
        [1] = .ok (some [101])) ∧
    (get_value_cf_opt
        ⟨⟨1, 0, [], [9]⟩, 10, 5⟩
        [⟨[1], 6, .value, [100]⟩, ⟨[1], 3, .value, [101]⟩,
         ⟨[2], 5, .deletion, []⟩, ⟨[2], 2, .value, [102]⟩]
        [2] = .ok none) := by
  constructor
  · exact (C1_point_read_mvcc_visibility _ _ _ (by decide) (by decide)
      (by decide)).trans (by decide)
  · exact (C1_point_read_mvcc_visibility _ _ _ (by decide) (by decide)
      (by decide)).trans (by decide)

/-- C10.  Out-of-region point reads are rejected: a key outside
`[region.start, region.end)` yields an error (never `Ok`), and the store is
not consulted (the result does not depend on the skiplist contents). -/
theorem C10_out_of_region_get_rejected (meta : RegionCacheSnapshotMeta)
    (key : Bytes) (hout : meta.region.contains_key key = false)
    (L L' : List Entry) :
    get_value_cf_opt meta L key = .error (.Other "key not in range") ∧
    get_value_cf_opt meta L key = get_value_cf_opt meta L' key := by
  rw [get_value_cf_opt, get_value_cf_opt]
  simp [hout]

theorem C10_out_of_region_get_rejected_witness :
    get_value_cf_opt ⟨⟨1, 0, [3], [9]⟩, 10, 100⟩ [⟨[1], 6, .value, [100]⟩] [1]
        = .error (.Other "key not in range") ∧
    get_value_cf_opt ⟨⟨1, 0, [3], [9]⟩, 10, 100⟩ [⟨[1], 6, .value, [100]⟩] [1]
        = get_value_cf_opt ⟨⟨1, 0, [3], [9]⟩, 10, 100⟩ [] [1] :=
  C10_out_of_region_get_rejected ⟨⟨1, 0, [3], [9]⟩, 10, 100⟩ [1] (by decide)
    [⟨[1], 6, .value, [100]⟩] []

/-- C5.  Iterator-creation failure modes: `iterator_opt` returns
`BoundaryNotSet` whenever a bound is missing, an `Other` boundary error
whenever the bounds do not lie inside `[region.start, region.end]`, and
otherwise a fresh iterator; on any error no iterator is produced. -/
theorem C5_iterator_opt_failure_modes (meta : RegionCacheSnapshotMeta)
    (L : List Entry) (opts : IterOptions) :
    ((opts.lower_bound = none ∨ opts.upper_bound = none) →
        iterator_opt meta L opts = .error .BoundaryNotSet) ∧
    (∀ lower upper, opts.lower_bound = some lower →
        opts.upper_bound = some upper →
      (¬ (bytesLe meta.region.start lower = true ∧
            bytesLe upper meta.region.endK = true) →
          iterator_opt meta L opts =
            .error (.Other
              "the boundaries required exceed the range of the snapshot")) ∧
      ((bytesLe meta.region.start lower = true ∧
            bytesLe upper meta.region.endK = true) →
          iterator_opt meta L opts =
            .ok { entries := L, pos := none, valid := false,
                  lower_bound := lower, upper_bound := upper,
                  sequence_number := meta.sequence_number,
                  saved_user_key := [], saved_value := none,
                  usePfx := opts.pfx_same_as_start, pfx := none,
                  direction := .Uninit })) := by
  constructor
  · intro h
    rcases h with h | h <;>
    · cases hl : opts.lower_bound <;> cases hu : opts.upper_bound <;>
        simp_all [iterator_opt]
  · intro lower upper hl hu
    constructor
    · intro h
      have : bytesLt lower meta.region.start = true ∨
          bytesLt meta.region.endK upper = true := by
        by_contra hc
        push_neg at hc
        exact h ⟨by simpa [bytesLe] using hc.1, by simpa [bytesLe] using hc.2⟩
      rw [iterator_opt, hl, hu]
      rcases this with h' | h' <;> simp [h']
    · intro h
      rw [iterator_opt, hl, hu]
      have h1 : bytesLt lower meta.region.start = false := bytesNot_lt_of_le h.1
      have h2 : bytesLt meta.region.endK upper = false := bytesNot_lt_of_le h.2
      simp [h1, h2]

theorem C5_iterator_opt_failure_modes_witness :
    iterator_opt ⟨⟨1, 0, [], [9]⟩, 10, 4⟩ [] ⟨none, some [5], false⟩
        = .error .BoundaryNotSet ∧
    iterator_opt ⟨⟨1, 0, [2], [9]⟩, 10, 4⟩ [] ⟨some [1], some [5], false⟩
        = .error (.Other
            "the boundaries required exceed the range of the snapshot") ∧
    iterator_opt ⟨⟨1, 0, [], [9]⟩, 10, 4⟩ [] ⟨some [1], some [5], false⟩
        = .ok { entries := [], pos := none, valid := false,
                lower_bound := [1], upper_bound := [5], sequence_number := 4,
                saved_user_key := [], saved_value := none, usePfx := false,
                pfx := none, direction := .Uninit } :=
  ⟨(C5_iterator_opt_failure_modes ⟨⟨1, 0, [], [9]⟩, 10, 4⟩ []
      ⟨none, some [5], false⟩).1 (Or.inl rfl),
   ((C5_iterator_opt_failure_modes ⟨⟨1, 0, [2], [9]⟩, 10, 4⟩ []
      ⟨some [1], some [5], false⟩).2 [1] [5] rfl rfl).1 (by decide),
   ((C5_iterator_opt_failure_modes ⟨⟨1, 0, [], [9]⟩, 10, 4⟩ []
      ⟨some [1], some [5], false⟩).2 [1] [5] rfl rfl).2 (by decide)⟩

/-! ### Snapshot admission (`RegionCacheSnapshot::new` / `region_snapshot`)

`RegionCacheSnapshot::new` (read.rs lines 71-86) delegates admission to
`region_manager.region_snapshot(id, epoch_version, read_ts)`.  The region
manager is not among the provided sources; it is modelled from the spec
(§4.3) with the admission boundary fixed by the in-source test
`test_snapshot` (read.rs lines 737-746): after `set_safe_point(region, 5)` a
snapshot at `read_ts = 5` must fail with `TooOldRead`, so the failing
condition is `read_ts ≤ safe_point`, not `read_ts < safe_point`. -/

/-- `FailedReason` from `engine_traits`. -/
inductive FailedReason where
  | NotCached : FailedReason
  | TooOldRead : FailedReason
  | EpochNotMatch : FailedReason
deriving DecidableEq, Repr

/-- Per-region state kept by the region manager (modelled from the spec §3,
§4.3): cached flag, safe point, and the snapshot list (a multiset of live
snapshot timestamps with reference counts). -/
structure RegionMeta where
  region : CacheRegion
  cached : Bool
  safe_point : Nat
  snapshot_list : List (Nat × Nat)
deriving DecidableEq, Repr

/-- Reference count held at timestamp `ts` in a snapshot list. -/
def snapListGet (l : List (Nat × Nat)) (ts : Nat) : Nat :=
  match l with
  | [] => 0
  | (t, c) :: rest => if t = ts then c else snapListGet rest ts

/-- Register one more snapshot at timestamp `ts`. -/
def snapListIncr (l : List (Nat × Nat)) (ts : Nat) : List (Nat × Nat) :=
  match l with
  | [] => [(ts, 1)]
  | (t, c) :: rest =>
    if t = ts then (t, c + 1) :: rest else (t, c) :: snapListIncr rest ts

/-- Modelled from the spec: `region_snapshot(id, epoch, read_ts)` of §4.3
(the region-manager implementation is not among the provided sources).  Check
order and the `read_ts ≤ safe_point → TooOldRead` boundary follow the
in-source test `test_snapshot`. -/
def region_snapshot (mgr : Option RegionMeta) (epoch read_ts : Nat) :
    Except FailedReason RegionMeta :=
  match mgr with
  | none => .error .NotCached
  | some m =>
    if ¬ m.cached then .error .NotCached
    else if m.region.epoch_version ≠ epoch then .error .EpochNotMatch
    else if read_ts ≤ m.safe_point then .error .TooOldRead
    else .ok { m with snapshot_list := snapListIncr m.snapshot_list read_ts }

/-- Modelled from the spec: `set_safe_point(id, ts) → bool` is monotone
(§4.3, §8: the safe point is left at `max(t1, t2)`). -/
def set_safe_point (m : RegionMeta) (ts : Nat) : Bool × RegionMeta :=
  if m.safe_point < ts then (true, { m with safe_point := ts }) else (false, m)

theorem snapListGet_incr (l : List (Nat × Nat)) (ts : Nat) :
    snapListGet (snapListIncr l ts) ts = snapListGet l ts + 1 := by
  induction l with
  | nil => simp [snapListGet, snapListIncr]
  | cons p rest ih =>
    obtain ⟨t, c⟩ := p
    by_cases h : t = ts
    · subst h; simp [snapListGet, snapListIncr]
    · simp [snapListGet, snapListIncr, h, ih]

/-- Replay of the admission steps of the in-source test `test_snapshot`:
with the safe point at 5, a snapshot at `read_ts = 5` fails with
`TooOldRead`, while `read_ts = 10` is admitted. -/
theorem test_snapshot_replay :
    region_snapshot (some ⟨⟨1, 0, [0], [1, 0]⟩, true, 0, []⟩) 0 5 =
      .ok ⟨⟨1, 0, [0], [1, 0]⟩, true, 0, [(5, 1)]⟩ ∧
    set_safe_point ⟨⟨1, 0, [0], [1, 0]⟩, true, 0, [(5, 1)]⟩ 5 =
      (true, ⟨⟨1, 0, [0], [1, 0]⟩, true, 5, [(5, 1)]⟩) ∧
    region_snapshot (some ⟨⟨1, 0, [0], [1, 0]⟩, true, 5, [(5, 1)]⟩) 0 5 =
      .error .TooOldRead ∧
    region_snapshot (some ⟨⟨1, 0, [0], [1, 0]⟩, true, 5, [(5, 1)]⟩) 0 10 =
      .ok ⟨⟨1, 0, [0], [1, 0]⟩, true, 5, [(5, 1), (10, 1)]⟩ ∧
    snapListGet [(5, 1), (10, 1)] 10 = 1 := by
  refine ⟨by decide, by decide, by decide, by decide, by decide⟩

/-- C3 counterexample: a region that is cached, with a matching
epoch and `read_ts = safe_point = 5` (so `read_ts ≥ safe_point` holds), is
*rejected* with `TooOldRead` — the claim's boundary (`fails exactly when
`read_ts < sp`) is off by one. -/
theorem C3_read_ts_eq_safe_point_rejected :
    (⟨⟨1, 0, [0], [1, 0]⟩, true, 5, []⟩ : RegionMeta).cached = true ∧
    (⟨⟨1, 0, [0], [1, 0]⟩, true, 5, []⟩ : RegionMeta).region.epoch_version = 0 ∧
    (⟨⟨1, 0, [0], [1, 0]⟩, true, 5, []⟩ : RegionMeta).safe_point ≤ 5 ∧
    region_snapshot (some ⟨⟨1, 0, [0], [1, 0]⟩, true, 5, []⟩) 0 5 =
      .error .TooOldRead := by
  refine ⟨rfl, rfl, by decide, by decide⟩

/-- C3 (amended).  Snapshot admission boundary: for a cached region
with matching epoch, creating a snapshot succeeds — incrementing the
snapshot refcount at `read_ts` — exactly when `read_ts > safe_point`, and
fails with `TooOldRead` exactly when `read_ts ≤ safe_point`. -/
theorem C3_snapshot_admission_boundary (m : RegionMeta) (epoch read_ts : Nat)
    (hc : m.cached = true) (he : m.region.epoch_version = epoch) :
    (read_ts ≤ m.safe_point →
        region_snapshot (some m) epoch read_ts = .error .TooOldRead) ∧
    (m.safe_point < read_ts →
        region_snapshot (some m) epoch read_ts =
          .ok { m with snapshot_list := snapListIncr m.snapshot_list read_ts } ∧
        ∀ m', region_snapshot (some m) epoch read_ts = .ok m' →
          snapListGet m'.snapshot_list read_ts =
            snapListGet m.snapshot_list read_ts + 1) := by
  constructor
  · intro h
    simp [region_snapshot, hc, he, h]
  · intro h
    have heq : region_snapshot (some m) epoch read_ts =
        .ok { m with snapshot_list := snapListIncr m.snapshot_list read_ts } := by
      simp [region_snapshot, hc, he, Nat.not_le.mpr h]
    refine ⟨heq, ?_⟩
    intro m' hm'
    rw [heq] at hm'
    cases Except.ok.inj hm'
    exact snapListGet_incr m.snapshot_list read_ts

theorem C3_snapshot_admission_boundary_witness :
    region_snapshot (some ⟨⟨1, 0, [0], [1, 0]⟩, true, 5, []⟩) 0 6 =
      .ok ⟨⟨1, 0, [0], [1, 0]⟩, true, 5, [(6, 1)]⟩ ∧
    region_snapshot (some ⟨⟨1, 0, [0], [1, 0]⟩, true, 5, []⟩) 0 5 =
      .error .TooOldRead :=
  ⟨((C3_snapshot_admission_boundary ⟨⟨1, 0, [0], [1, 0]⟩, true, 5, []⟩ 0 6
        rfl rfl).2 (by decide)).1.trans (by decide),
   (C3_snapshot_admission_boundary ⟨⟨1, 0, [0], [1, 0]⟩, true, 5, []⟩ 0 5
        rfl rfl).1 (by decide)⟩

/-! ### The region worker's apply path (`Runner::handle_apply`) -/

/-- The `JOB_STATUS_*` constants from `peer_storage`. -/
inductive JobStatus where
  | Pending : JobStatus
  | Running : JobStatus
  | Cancelling : JobStatus
  | Cancelled : JobStatus
  | Finished : JobStatus
  | Failed : JobStatus
deriving DecidableEq, Repr

/-- The result of `apply_snap` as matched by `handle_apply`: success, the
`Abort` error (cooperative cancellation), or any other error. -/
inductive ApplySnapResult where
  | ok : ApplySnapResult
  | abort : ApplySnapResult
  | err : ApplySnapResult
deriving DecidableEq, Repr

/-- The externally observable outcome of `Runner::handle_apply`:
the job status stored by the final `swap`, the `tombstone` flag of the
`SnapshotApplied` message sent to the router, whether the observer's
`cancel_apply_snapshot` was invoked, and whether the `Abort`-branch
assertion (`swap` must return `JOB_STATUS_CANCELLING`) held. -/
structure HandleApplyOutcome where
  status : JobStatus
  tombstone : Bool
  cancel_observer_invoked : Bool
  abort_assert_ok : Bool
deriving DecidableEq, Repr

/-- `Runner::handle_apply` from `region.rs` (lines 380-430), given the result
of `apply_snap` and the shared status value observed by the final `swap`. -/
def handle_apply (res : ApplySnapResult) (statusAtSwap : JobStatus) :
    HandleApplyOutcome :=
  match res with
  | .ok => ⟨.Finished, false, false, true⟩
  | .abort => ⟨.Cancelled, false, true, decide (statusAtSwap = .Cancelling)⟩
  | .err => ⟨.Failed, true, true, true⟩

/-- C9.  Apply cancellation versus failure: when `apply_snap`
returns `Abort` the status becomes `Cancelled` (asserting it was
`Cancelling`), `cancel_apply_snapshot` is invoked and the `SnapshotApplied`
message carries `tombstone = false`; any other error sets `Failed` with
`tombstone = true`; success sets `Finished`. -/
theorem C9_apply_cancel_vs_failure (st : JobStatus) :
    ((handle_apply .abort st).status = .Cancelled ∧
     (handle_apply .abort st).tombstone = false ∧
     (handle_apply .abort st).cancel_observer_invoked = true ∧
     ((handle_apply .abort st).abort_assert_ok = true ↔ st = .Cancelling)) ∧
    ((handle_apply .err st).status = .Failed ∧
     (handle_apply .err st).tombstone = true) ∧
    ((handle_apply .ok st).status = .Finished ∧
     (handle_apply .ok st).tombstone = false) := by
  refine ⟨⟨rfl, rfl, rfl, ?_⟩, ⟨rfl, rfl⟩, ⟨rfl, rfl⟩⟩
  simp [handle_apply]

/-! ### Pending delete ranges (`region.rs`) -/

/-- `StalePeerInfo` from `region.rs`. -/
structure StalePeerInfo where
  region_id : Nat
  end_key : Bytes
  stale_sequence : Nat
deriving DecidableEq, Repr

/-- `PendingDeleteRanges` from `region.rs`: a `BTreeMap<Vec<u8>, StalePeerInfo>`
keyed by start key, modelled as an association list kept strictly sorted by
start key (the `BTreeMap` iteration order). -/
structure PendingDeleteRanges where
  ranges : List (Bytes × StalePeerInfo)
deriving DecidableEq, Repr

/-- A drained overlap record `(region_id, start_key, end_key, stale_sequence)`
as returned by `find_overlap_ranges`. -/
abbrev OverlapRange := Nat × Bytes × Bytes × Nat

/-- `PendingDeleteRanges::find_overlap_ranges` (region.rs lines 118-150):
the last range starting strictly before `start_key` (if it reaches past
`start_key`), followed by every range starting inside `[start_key, end_key)`. -/
def find_overlap_ranges (m : PendingDeleteRanges) (start_key end_key : Bytes) :
    List OverlapRange :=
  let first : List OverlapRange :=
    match (m.ranges.filter (fun p => bytesLt p.1 start_key)).getLast? with
    | some (s_key, info) =>
      if bytesLt start_key info.end_key then
        [(info.region_id, s_key, info.end_key, info.stale_sequence)]
      else []
    | none => []
  first ++ (m.ranges.filter
      (fun p => bytesLe start_key p.1 && bytesLt p.1 end_key)).map
    (fun p => (p.2.region_id, p.1, p.2.end_key, p.2.stale_sequence))

/-- `PendingDeleteRanges::drain_overlap_ranges` (region.rs lines 153-164):
returns the overlapping ranges and removes them from the map. -/
def drain_overlap_ranges (m : PendingDeleteRanges) (start_key end_key : Bytes) :
    List OverlapRange × PendingDeleteRanges :=
  let rs := find_overlap_ranges m start_key end_key
  (rs, ⟨m.ranges.filter (fun p => !decide (∃ r ∈ rs, r.2.1 = p.1))⟩)

/-- Ordered insertion into the association list (the `BTreeMap::insert`). -/
def sortedInsert (l : List (Bytes × StalePeerInfo)) (s : Bytes)
    (info : StalePeerInfo) : List (Bytes × StalePeerInfo) :=
  match l with
  | [] => [(s, info)]
  | (s', i') :: rest =>
    if bytesLt s s' then (s, info) :: (s', i') :: rest
    else if s = s' then (s, info) :: rest
    else (s', i') :: sortedInsert rest s info

/-- `PendingDeleteRanges::insert` (region.rs lines 177-198): panics — modelled
as `none` — if some range still overlaps, otherwise records the range. -/
def PendingDeleteRanges.insert (m : PendingDeleteRanges) (region_id : Nat)
    (start_key end_key : Bytes) (stale_sequence : Nat) :
    Option PendingDeleteRanges :=
  if find_overlap_ranges m start_key end_key ≠ [] then none
  else some ⟨sortedInsert m.ranges start_key ⟨region_id, end_key, stale_sequence⟩⟩

/-- The map/bounds part of `Runner::clean_overlap_ranges_roughly` (region.rs
lines 436-487): drain the overlapping ranges and grow `[start_key, end_key)`
to cover them (the file-level deletes it issues do not affect the map). -/
def mergeStep (se : Bytes × Bytes) (r : OverlapRange) : Bytes × Bytes :=
  (if bytesLt r.2.1 se.1 then r.2.1 else se.1,
   if bytesLt se.2 r.2.2.1 then r.2.2.1 else se.2)

def clean_overlap_ranges_roughly (m : PendingDeleteRanges)
    (start_key end_key : Bytes) : Bytes × Bytes × PendingDeleteRanges :=
  let d := drain_overlap_ranges m start_key end_key
  let merged := d.1.foldl mergeStep (start_key, end_key)
  (merged.1, merged.2, d.2)

/-- `Runner::insert_pending_delete_range` (region.rs lines 507-522):
coalesce with the overlapping pending ranges, then insert the merged range
stamped with the engine's latest sequence number (here a parameter). -/
def insert_pending_delete_range (m : PendingDeleteRanges) (region_id : Nat)
    (start_key end_key : Bytes) (latest_seq : Nat) :
    Option PendingDeleteRanges :=
  let c := clean_overlap_ranges_roughly m start_key end_key
  c.2.2.insert region_id c.1 c.2.1 latest_seq

/-- Half-open ranges `[s1, e1)` and `[s2, e2)` do not intersect. -/
def rangesDisjoint (s1 e1 s2 e2 : Bytes) : Prop :=
  bytesLe e1 s2 = true ∨ bytesLe e2 s1 = true

instance (s1 e1 s2 e2 : Bytes) : Decidable (rangesDisjoint s1 e1 s2 e2) := by
  unfold rangesDisjoint; infer_instance

/-- The map invariant: start keys strictly sorted, every range nonempty, and
all ranges pairwise disjoint. -/
def PdrInv (m : PendingDeleteRanges) : Prop :=
  List.Pairwise (fun p q => bytesLt p.1 q.1 = true) m.ranges ∧
  (∀ p ∈ m.ranges, bytesLt p.1 p.2.end_key = true) ∧
  List.Pairwise (fun p q => rangesDisjoint p.1 p.2.end_key q.1 q.2.end_key)
    m.ranges

instance (m : PendingDeleteRanges) : Decidable (PdrInv m) := by
  unfold PdrInv; infer_instance

/-- Pairwise disjointness alone (the property claimed by the spec). -/
def PdrDisjoint (m : PendingDeleteRanges) : Prop :=
  List.Pairwise (fun p q => rangesDisjoint p.1 p.2.end_key q.1 q.2.end_key)
    m.ranges

instance (m : PendingDeleteRanges) : Decidable (PdrDisjoint m) := by
  unfold PdrDisjoint; infer_instance

/-- Running a sequence of `Destroy`-driven inserts
`(region_id, start_key, end_key, latest_seq)` from the empty map. -/
def runDestroys (ops : List (Nat × Bytes × Bytes × Nat)) :
    Option PendingDeleteRanges :=
  ops.foldl
    (fun acc op =>
      acc.bind (fun m =>
        insert_pending_delete_range m op.1 op.2.1 op.2.2.1 op.2.2.2))
    (some ⟨[]⟩)

theorem rangesDisjoint_symm {s1 e1 s2 e2 : Bytes}
    (h : rangesDisjoint s1 e1 s2 e2) : rangesDisjoint s2 e2 s1 e1 :=
  h.symm

theorem pairwise_mem_rel {R : (Bytes × StalePeerInfo) → (Bytes × StalePeerInfo) → Prop}
    {l : List (Bytes × StalePeerInfo)} (hl : List.Pairwise R l)
    {p q : Bytes × StalePeerInfo} (hp : p ∈ l) (hq : q ∈ l) (hne : p ≠ q) :
    R p q ∨ R q p := by
  induction l with
  | nil => simp at hp
  | cons a rest ih =>
    rcases List.pairwise_cons.mp hl with ⟨ha, hrest⟩
    rcases List.mem_cons.mp hp with rfl | hp' <;>
      rcases List.mem_cons.mp hq with rfl | hq'
    · exact absurd rfl hne
    · exact Or.inl (ha q hq')
    · exact Or.inr (ha p hp')
    · exact ih hrest hp' hq'

theorem getLast?_mem {α : Type} {l : List α} {x : α} (h : l.getLast? = some x) :
    x ∈ l := by
  induction l with
  | nil => simp at h
  | cons a rest ih =>
    cases rest with
    | nil => simp_all
    | cons b t =>
      rw [List.getLast?_cons_cons] at h
      exact List.mem_cons_of_mem a (ih h)

theorem getLast?_isSome_of_mem {α : Type} {l : List α} {x : α} (h : x ∈ l) :
    ∃ y, l.getLast? = some y := by
  cases l with
  | nil => simp at h
  | cons a rest => exact ⟨(a :: rest).getLast (by simp), List.getLast?_eq_getLast _ _⟩

theorem pairwise_getLast_ge {R : (Bytes × StalePeerInfo) → (Bytes × StalePeerInfo) → Prop}
    {l : List (Bytes × StalePeerInfo)} (hl : List.Pairwise R l)
    {x : Bytes × StalePeerInfo} (h : l.getLast? = some x) :
    ∀ y ∈ l, y = x ∨ R y x := by
  induction l with
  | nil => simp at h
  | cons a rest ih =>
    rcases List.pairwise_cons.mp hl with ⟨ha, hrest⟩
    cases rest with
    | nil =>
      intro y hy
      simp at h hy
      subst h; subst hy; exact Or.inl rfl
    | cons b t =>
      rw [List.getLast?_cons_cons] at h
      intro y hy
      rcases List.mem_cons.mp hy with rfl | hy'
      · exact Or.inr (ha x (getLast?_mem h))
      · exact ih hrest h y hy'

theorem sorted_start_unique {l : List (Bytes × StalePeerInfo)}
    (hl : List.Pairwise (fun p q => bytesLt p.1 q.1 = true) l)
    {p q : Bytes × StalePeerInfo} (hp : p ∈ l) (hq : q ∈ l)
    (h : p.1 = q.1) : p = q := by
  by_cases hne : p = q
  · exact hne
  · rcases pairwise_mem_rel hl hp hq hne with h' | h' <;>
      exact absurd h' (by rw [h, bytesLt_irrefl]; simp)

theorem mem_sortedInsert {l : List (Bytes × StalePeerInfo)} {s : Bytes}
    {info : StalePeerInfo} {x : Bytes × StalePeerInfo}
    (h : x ∈ sortedInsert l s info) : x = (s, info) ∨ x ∈ l := by
  induction l with
  | nil => simp [sortedInsert] at h; exact Or.inl h
  | cons a rest ih =>
    rw [sortedInsert] at h
    split at h
    · rcases List.mem_cons.mp h with rfl | h'
      · exact Or.inl rfl
      · exact Or.inr h'
    · split at h
      · rcases List.mem_cons.mp h with rfl | h'
        · exact Or.inl rfl
        · exact Or.inr (List.mem_cons_of_mem a h')
      · rcases List.mem_cons.mp h with rfl | h'
        · exact Or.inr (List.mem_cons_self _ _)
        · rcases ih h' with h'' | h''
          · exact Or.inl h''
          · exact Or.inr (List.mem_cons_of_mem a h'')

theorem sortedInsert_pairwise_lt {l : List (Bytes × StalePeerInfo)} {s : Bytes}
    {info : StalePeerInfo}
    (hl : List.Pairwise (fun p q => bytesLt p.1 q.1 = true) l) :
    List.Pairwise (fun p q => bytesLt p.1 q.1 = true)
      (sortedInsert l s info) := by
  induction l with
  | nil => simp [sortedInsert]
  | cons a rest ih =>
    rcases List.pairwise_cons.mp hl with ⟨ha, hrest⟩
    rw [sortedInsert]
    split
    · rename_i hlt
      refine List.pairwise_cons.mpr ⟨?_, hl⟩
      intro q hq
      rcases List.mem_cons.mp hq with rfl | hq'
      · exact hlt
      · exact bytesLt_trans hlt (ha q hq')
    · split
      · rename_i heq
        refine List.pairwise_cons.mpr ⟨?_, hrest⟩
        intro q hq
        rw [heq]
        exact ha q hq
      · rename_i hnlt hne
        refine List.pairwise_cons.mpr ⟨?_, ih hrest⟩
        intro q hq
        rcases mem_sortedInsert hq with rfl | hq'
        · rcases bytesLt_trichotomy s a.1 with h | h | h
          · exact absurd h hnlt
          · exact absurd h hne
          · exact h
        · exact ha q hq'

theorem sortedInsert_pairwise_rel
    {R : (Bytes × StalePeerInfo) → (Bytes × StalePeerInfo) → Prop}
    {l : List (Bytes × StalePeerInfo)} {s : Bytes} {info : StalePeerInfo}
    (hl : List.Pairwise R l)
    (hnew : ∀ p ∈ l, R (s, info) p ∧ R p (s, info)) :
    List.Pairwise R (sortedInsert l s info) := by
  induction l with
  | nil => simp [sortedInsert]
  | cons a rest ih =>
    rcases List.pairwise_cons.mp hl with ⟨ha, hrest⟩
    rw [sortedInsert]
    split
    · refine List.pairwise_cons.mpr ⟨?_, hl⟩
      intro q hq
      exact (hnew q hq).1
    · split
      · refine List.pairwise_cons.mpr ⟨?_, hrest⟩
        intro q hq
        exact (hnew q (List.mem_cons_of_mem a hq)).1
      · refine List.pairwise_cons.mpr ⟨?_, ?_⟩
        · intro q hq
          rcases mem_sortedInsert hq with rfl | hq'
          · exact (hnew a (List.mem_cons_self a rest)).2
          · exact ha q hq'
        · exact ih hrest (fun p hp => hnew p (List.mem_cons_of_mem a hp))

/-! Bounds of the `clean_overlap_ranges_roughly` fold. -/

theorem mergeStep_fst_le (se : Bytes × Bytes) (r : OverlapRange) :
    bytesLe (mergeStep se r).1 se.1 = true := by
  simp only [mergeStep]
  split
  · exact bytesLe_of_lt (by assumption)
  · exact bytesLe_refl _

theorem mergeStep_snd_ge (se : Bytes × Bytes) (r : OverlapRange) :
    bytesLe se.2 (mergeStep se r).2 = true := by
  simp only [mergeStep]
  split
  · exact bytesLe_of_lt (by assumption)
  · exact bytesLe_refl _

theorem mergeStep_fst_le_start (se : Bytes × Bytes) (r : OverlapRange) :
    bytesLe (mergeStep se r).1 r.2.1 = true := by
  simp only [mergeStep]
  split
  · exact bytesLe_refl _
  · rename_i h
    simp [bytesLe, Bool.of_not_eq_true h]

theorem mergeStep_snd_ge_end (se : Bytes × Bytes) (r : OverlapRange) :
    bytesLe r.2.2.1 (mergeStep se r).2 = true := by
  simp only [mergeStep]
  split
  · exact bytesLe_refl _
  · rename_i h
    simp [bytesLe, Bool.of_not_eq_true h]

theorem foldl_merge_fst_le (rs : List OverlapRange) (se : Bytes × Bytes) :
    bytesLe (rs.foldl mergeStep se).1 se.1 = true := by
  induction rs generalizing se with
  | nil => exact bytesLe_refl _
  | cons r rest ih =>
    exact bytesLe_trans (ih (mergeStep se r)) (mergeStep_fst_le se r)

theorem foldl_merge_snd_ge (rs : List OverlapRange) (se : Bytes × Bytes) :
    bytesLe se.2 (rs.foldl mergeStep se).2 = true := by
  induction rs generalizing se with
  | nil => exact bytesLe_refl _
  | cons r rest ih =>
    exact bytesLe_trans (mergeStep_snd_ge se r) (ih (mergeStep se r))

theorem foldl_merge_fst_le_mem {rs : List OverlapRange} {r : OverlapRange}
    (hr : r ∈ rs) (se : Bytes × Bytes) :
    bytesLe (rs.foldl mergeStep se).1 r.2.1 = true := by
  induction rs generalizing se with
  | nil => simp at hr
  | cons a rest ih =>
    rcases List.mem_cons.mp hr with rfl | hr'
    · exact bytesLe_trans (foldl_merge_fst_le rest (mergeStep se r))
        (mergeStep_fst_le_start se r)
    · exact ih hr' (mergeStep se a)

theorem foldl_merge_snd_ge_mem {rs : List OverlapRange} {r : OverlapRange}
    (hr : r ∈ rs) (se : Bytes × Bytes) :
    bytesLe r.2.2.1 (rs.foldl mergeStep se).2 = true := by
  induction rs generalizing se with
  | nil => simp at hr
  | cons a rest ih =>
    rcases List.mem_cons.mp hr with rfl | hr'
    · exact bytesLe_trans (mergeStep_snd_ge_end se r)
        (foldl_merge_snd_ge rest (mergeStep se r))
    · exact ih hr' (mergeStep se a)

theorem foldl_merge_fst_ge {rs : List OverlapRange} {X : Bytes}
    {se : Bytes × Bytes} (h0 : bytesLe X se.1 = true)
    (h : ∀ r ∈ rs, bytesLe X r.2.1 = true) :
    bytesLe X (rs.foldl mergeStep se).1 = true := by
  induction rs generalizing se with
  | nil => exact h0
  | cons a rest ih =>
    refine ih ?_ (fun r hr => h r (List.mem_cons_of_mem a hr))
    simp only [mergeStep]
    split
    · exact h a (List.mem_cons_self a rest)
    · exact h0

theorem foldl_merge_snd_le {rs : List OverlapRange} {X : Bytes}
    {se : Bytes × Bytes} (h0 : bytesLe se.2 X = true)
    (h : ∀ r ∈ rs, bytesLe r.2.2.1 X = true) :
    bytesLe (rs.foldl mergeStep se).2 X = true := by
  induction rs generalizing se with
  | nil => exact h0
  | cons a rest ih =>
    refine ih ?_ (fun r hr => h r (List.mem_cons_of_mem a hr))
    simp only [mergeStep]
    split
    · exact h a (List.mem_cons_self a rest)
    · exact h0

/-- Every record returned by `find_overlap_ranges` is backed by an entry of
the map, found either as the last range starting before `start_key` (first
disjunct) or as a range starting inside `[start_key, end_key)` (second). -/
theorem mem_find_overlap {m : PendingDeleteRanges} {s e : Bytes}
    {r : OverlapRange} (hr : r ∈ find_overlap_ranges m s e) :
    (∃ q ∈ m.ranges, q.1 = r.2.1 ∧ q.2.end_key = r.2.2.1 ∧
       bytesLt q.1 s = true ∧ bytesLt s q.2.end_key = true) ∨
    (∃ q ∈ m.ranges, q.1 = r.2.1 ∧ q.2.end_key = r.2.2.1 ∧
       bytesLe s q.1 = true ∧ bytesLt q.1 e = true) := by
  unfold find_overlap_ranges at hr
  rcases List.mem_append.mp hr with hl | hl
  · left
    split at hl
    · rename_i s_key info heq
      split at hl
      · rename_i hend
        rcases List.mem_singleton.mp hl with rfl
        have hqf := getLast?_mem heq
        have hq := List.mem_filter.mp hqf
        exact ⟨(s_key, info), hq.1, rfl, rfl, by simpa using hq.2, hend⟩
      · simp at hl
    · simp at hl
  · right
    rcases List.mem_map.mp hl with ⟨q, hqf, rfl⟩
    have hq := List.mem_filter.mp hqf
    have hpred : bytesLe s q.1 = true ∧ bytesLt q.1 e = true := by
      simpa using hq.2
    exact ⟨q, hq.1, rfl, rfl, hpred.1, hpred.2⟩

/-- Every record drained by `find_overlap_ranges` really intersects the query
range `[s, e)`. -/
theorem found_overlaps {m : PendingDeleteRanges} (hinv : PdrInv m)
    {s e : Bytes} (hse : bytesLt s e = true) {r : OverlapRange}
    (hr : r ∈ find_overlap_ranges m s e) :
    ∃ q ∈ m.ranges, q.1 = r.2.1 ∧ q.2.end_key = r.2.2.1 ∧
      bytesLt r.2.1 e = true ∧ bytesLt s r.2.2.1 = true := by
  rcases mem_find_overlap hr with ⟨q, hq, h1, h2, h3, h4⟩ | ⟨q, hq, h1, h2, h3, h4⟩
  · exact ⟨q, hq, h1, h2, h1 ▸ bytesLt_trans h3 hse, h2 ▸ h4⟩
  · have hqe : bytesLt q.1 q.2.end_key = true := hinv.2.1 q hq
    exact ⟨q, hq, h1, h2, h1 ▸ h4, h2 ▸ bytesLt_of_le_of_lt h3 hqe⟩

/-- A map entry whose start key is not among the drained records is disjoint
from the query range `[s, e)`: `find_overlap_ranges` is complete on a map
satisfying the invariant. -/
theorem not_found_disjoint {m : PendingDeleteRanges} (hinv : PdrInv m)
    {s e : Bytes} {p : Bytes × StalePeerInfo} (hp : p ∈ m.ranges)
    (hnf : ¬ ∃ r ∈ find_overlap_ranges m s e, r.2.1 = p.1) :
    rangesDisjoint p.1 p.2.end_key s e := by
  obtain ⟨ps, pinfo⟩ := p
  obtain ⟨hsort, hnem, hdis⟩ := hinv
  by_cases h1 : bytesLe s ps = true
  · by_cases h2 : bytesLt ps e = true
    · exfalso
      apply hnf
      refine ⟨(pinfo.region_id, ps, pinfo.end_key, pinfo.stale_sequence),
        ?_, rfl⟩
      unfold find_overlap_ranges
      apply List.mem_append_right
      exact List.mem_map_of_mem _
        (List.mem_filter.mpr ⟨hp, by simp [h1, h2]⟩)
    · right
      simpa [bytesLe] using h2
  · have hps : bytesLt ps s = true := bytesLt_of_not_le h1
    have hpfl : (ps, pinfo) ∈ m.ranges.filter (fun q => bytesLt q.1 s) :=
      List.mem_filter.mpr ⟨hp, by simpa using hps⟩
    obtain ⟨last, hlast⟩ := getLast?_isSome_of_mem hpfl
    have hlm' := getLast?_mem hlast
    have hlm : last ∈ m.ranges := (List.mem_filter.mp hlm').1
    have hls : bytesLt last.1 s = true := by
      simpa using (List.mem_filter.mp hlm').2
    have hsortf : List.Pairwise (fun p q => bytesLt p.1 q.1 = true)
        (m.ranges.filter (fun q => bytesLt q.1 s)) := hsort.filter _
    rcases pairwise_getLast_ge hsortf hlast (ps, pinfo) hpfl with heq | hplt
    · -- `p` is the last range before `s`; since it was not drained, its end
      -- must not reach past `s`.
      by_cases h3 : bytesLt s pinfo.end_key = true
      · exfalso
        apply hnf
        refine ⟨(pinfo.region_id, ps, pinfo.end_key, pinfo.stale_sequence),
          ?_, rfl⟩
        unfold find_overlap_ranges
        apply List.mem_append_left
        rw [← heq] at hlast
        rw [hlast]
        simp [h3]
      · left
        simpa [bytesLe] using h3
    · -- `p` starts before the last range before `s`; by disjointness its end
      -- cannot reach `s`.
      have hpne : (ps, pinfo) ≠ last := by
        intro hc
        rw [hc, bytesLt_irrefl] at hplt
        exact Bool.noConfusion hplt
      have hlne : bytesLt last.1 last.2.end_key = true := hnem last hlm
      have key : bytesLe pinfo.end_key last.1 = true := by
        rcases pairwise_mem_rel hdis hp hlm hpne with hd | hd
        · rcases hd with hd | hd
          · exact hd
          · exfalso
            have h5 : bytesLt last.1 ps = true :=
              bytesLt_of_lt_of_le hlne hd
            have := bytesLt_trans h5 hplt
            rw [bytesLt_irrefl] at this
            exact Bool.noConfusion this
        · rcases hd with hd | hd
          · exfalso
            have h5 : bytesLt last.1 ps = true :=
              bytesLt_of_lt_of_le hlne hd
            have := bytesLt_trans h5 hplt
            rw [bytesLt_irrefl] at this
            exact Bool.noConfusion this
          · exact hd
      left
      exact bytesLe_trans key (bytesLe_of_lt hls)

/-- One `Destroy`-driven insert preserves the pending-delete-map invariant
(and never hits the overlap panic in `PendingDeleteRanges::insert`). -/
theorem insert_pending_step {m : PendingDeleteRanges} {rid : Nat}
    {s e : Bytes} {seq : Nat} (hinv : PdrInv m) (hse : bytesLt s e = true) :
    ∃ m', insert_pending_delete_range m rid s e seq = some m' ∧ PdrInv m' := by
  classical
  obtain ⟨hsort, hnem, hdis⟩ := hinv
  set rs := find_overlap_ranges m s e with hrs
  set rem : List (Bytes × StalePeerInfo) :=
    m.ranges.filter (fun p => !decide (∃ r ∈ rs, r.2.1 = p.1)) with hrem
  set sstar := (rs.foldl mergeStep (s, e)).1 with hsstar
  set estar := (rs.foldl mergeStep (s, e)).2 with hestar
  have hsort' : List.Pairwise (fun p q => bytesLt p.1 q.1 = true) rem :=
    hsort.filter _
  have hnem' : ∀ p ∈ rem, bytesLt p.1 p.2.end_key = true :=
    fun p hp => hnem p (List.mem_filter.mp hp).1
  have hdis' : List.Pairwise
      (fun p q => rangesDisjoint p.1 p.2.end_key q.1 q.2.end_key) rem :=
    hdis.filter _
  have hinv' : PdrInv ⟨rem⟩ := ⟨hsort', hnem', hdis'⟩
  have hs_le : bytesLe sstar s = true := foldl_merge_fst_le rs (s, e)
  have he_ge : bytesLe e estar = true := foldl_merge_snd_ge rs (s, e)
  have hsestar : bytesLt sstar estar = true :=
    bytesLt_of_le_of_lt hs_le (bytesLt_of_lt_of_le hse he_ge)
  -- every remaining entry is disjoint from the merged range
  have hmain : ∀ p ∈ rem, rangesDisjoint p.1 p.2.end_key sstar estar := by
    intro p hp
    have hpm : p ∈ m.ranges := (List.mem_filter.mp hp).1
    have hnf : ¬ ∃ r ∈ rs, r.2.1 = p.1 := by
      have := (List.mem_filter.mp hp).2
      simpa using this
    have hpe : bytesLt p.1 p.2.end_key = true := hnem p hpm
    have hd0 : rangesDisjoint p.1 p.2.end_key s e :=
      not_found_disjoint ⟨hsort, hnem, hdis⟩ hpm hnf
    have hdr : ∀ r ∈ rs, bytesLe p.2.end_key r.2.1 = true ∨
        bytesLe r.2.2.1 p.1 = true := by
      intro r hr
      obtain ⟨q, hq, hq1, hq2, _, _⟩ :=
        found_overlaps ⟨hsort, hnem, hdis⟩ hse hr
      have hpq : p ≠ q := by
        intro hc
        exact hnf ⟨r, hr, by rw [hc, hq1]⟩
      have := pairwise_mem_rel hdis hpm hq hpq
      rw [hq1, hq2] at this
      rcases this with hd | hd
      · exact hd
      · exact hd.symm
    rcases hd0 with hd0 | hd0
    · -- `p` lies at or before `s`: its end stays at or before the merged start
      left
      apply @foldl_merge_fst_ge rs _ (s, e) hd0
      intro r hr
      rcases hdr r hr with h | h
      · exact h
      · exfalso
        obtain ⟨q, hq, hq1, hq2, _, hov2⟩ :=
          found_overlaps ⟨hsort, hnem, hdis⟩ hse hr
        -- p.1 < p.end ≤ s < r.end ≤ p.1
        have c1 : bytesLt s p.1 = true :=
          bytesLt_of_lt_of_le hov2 h
        have c2 : bytesLt p.1 s = true :=
          bytesLt_of_lt_of_le hpe hd0
        have := bytesLt_trans c1 c2
        rw [bytesLt_irrefl] at this
        exact Bool.noConfusion this
    · -- `p` lies at or after `e`: the merged end stays at or before `p.1`
      right
      apply @foldl_merge_snd_le rs _ (s, e) hd0
      intro r hr
      rcases hdr r hr with h | h
      · exfalso
        obtain ⟨q, hq, hq1, hq2, hov1, _⟩ :=
          found_overlaps ⟨hsort, hnem, hdis⟩ hse hr
        -- p.1 < p.end ≤ r.start < e ≤ p.1
        have c1 : bytesLt p.1 e = true :=
          bytesLt_of_lt_of_le (bytesLt_of_lt_of_le hpe h) (bytesLe_of_lt hov1)
        have c2 := bytesLt_of_lt_of_le c1 hd0
        rw [bytesLt_irrefl] at c2
        exact Bool.noConfusion c2
      · exact h
  -- hence nothing in the remaining map overlaps the merged range
  have hfo : find_overlap_ranges ⟨rem⟩ sstar estar = [] := by
    cases hfo' : find_overlap_ranges ⟨rem⟩ sstar estar with
    | nil => rfl
    | cons a t =>
      exfalso
      have ha : a ∈ find_overlap_ranges ⟨rem⟩ sstar estar := by
        rw [hfo']; exact List.mem_cons_self a t
      obtain ⟨q, hq, hq1, hq2, hov1, hov2⟩ :=
        found_overlaps hinv' hsestar ha
      rcases hmain q hq with hd | hd
      · rw [hq2] at hd
        have := bytesLt_of_lt_of_le hov2 hd
        rw [bytesLt_irrefl] at this
        exact Bool.noConfusion this
      · rw [hq1] at hd
        have := bytesLt_of_lt_of_le hov1 hd
        rw [bytesLt_irrefl] at this
        exact Bool.noConfusion this
  refine ⟨⟨sortedInsert rem sstar ⟨rid, estar, seq⟩⟩, ?_, ?_, ?_, ?_⟩
  · -- the insert path: drain, merge, then a non-panicking insert
    show (clean_overlap_ranges_roughly m s e).2.2.insert rid
        (clean_overlap_ranges_roughly m s e).1
        (clean_overlap_ranges_roughly m s e).2.1 seq = _
    have hclean : clean_overlap_ranges_roughly m s e =
        (sstar, estar, (⟨rem⟩ : PendingDeleteRanges)) := rfl
    rw [hclean, PendingDeleteRanges.insert]
    simp [hfo]
  · exact sortedInsert_pairwise_lt hsort'
  · intro p hp
    rcases mem_sortedInsert hp with rfl | hp'
    · exact hsestar
    · exact hnem' p hp'
  · refine sortedInsert_pairwise_rel hdis' ?_
    intro p hp
    exact ⟨(hmain p hp).symm, hmain p hp⟩

/-- C8 helper: folding `Destroy`-driven inserts preserves the invariant. -/
theorem runDestroys_aux (ops : List (Nat × Bytes × Bytes × Nat))
    (m0 : PendingDeleteRanges) (hinv : PdrInv m0)
    (hops : ∀ op ∈ ops, bytesLt op.2.1 op.2.2.1 = true) :
    ∃ m, ops.foldl
        (fun acc op =>
          acc.bind (fun m =>
            insert_pending_delete_range m op.1 op.2.1 op.2.2.1 op.2.2.2))
        (some m0) = some m ∧ PdrInv m := by
  induction ops generalizing m0 with
  | nil => exact ⟨m0, rfl, hinv⟩
  | cons op rest ih =>
    obtain ⟨m1, hm1, hinv1⟩ :=
      @insert_pending_step m0 op.1 op.2.1 op.2.2.1 op.2.2.2 hinv
        (hops op (List.mem_cons_self op rest))
    have : (some m0).bind
        (fun m => insert_pending_delete_range m op.1 op.2.1 op.2.2.1 op.2.2.2)
        = some m1 := by simpa using hm1
    rw [List.foldl_cons, this]
    exact ih m1 hinv1 (fun o ho => hops o (List.mem_cons_of_mem op ho))

/-- C8.  Pending-delete-range disjointness: after any sequence of
`Destroy`-driven inserts (each draining the overlapping entries and absorbing
their union), the inserts never hit the overlap panic and the entries of the
map are pairwise range-disjoint. -/
theorem C8_pending_delete_ranges_disjoint
    (ops : List (Nat × Bytes × Bytes × Nat))
    (hops : ∀ op ∈ ops, bytesLt op.2.1 op.2.2.1 = true) :
    ∃ m, runDestroys ops = some m ∧ PdrDisjoint m := by
  obtain ⟨m, hm, hinv⟩ := runDestroys_aux ops ⟨[]⟩ ⟨by simp, by simp, by simp⟩ hops
  exact ⟨m, hm, hinv.2.2⟩

theorem C8_pending_delete_ranges_disjoint_witness :
    ∃ m, runDestroys
        [(1, [1], [3], 10), (2, [13], [14], 10), (3, [6], [9], 10),
         (4, [16], [20], 10), (5, [7], [17], 12)] = some m ∧ PdrDisjoint m :=
  C8_pending_delete_ranges_disjoint _ (by decide)

/-! ### The MVCC iterator (`RegionCacheIterator`, read.rs lines 284-622)

The owned skiplist iterator is a position `pos : Option Nat` into the sorted
entry list; `none` is an invalid iterator.  The external skiplist contract
(§4.2) gives `seek`/`seek_for_prev`/`next`/`prev`; stepping an invalid
iterator keeps it invalid.  Loops become fuel recursion; every caller passes
fuel larger than the number of remaining positions, so the fuel never runs
out. -/

def U64_MAX : Nat := 2 ^ 64 - 1

/-- The underlying iterator's `next`. -/
def posNext (L : List Entry) (pos : Option Nat) : Option Nat :=
  match pos with
  | none => none
  | some i => if i + 1 < L.length then some (i + 1) else none

/-- The underlying iterator's `prev`. -/
def posPrev (pos : Option Nat) : Option Nat :=
  match pos with
  | none => none
  | some i => if i = 0 then none else some (i - 1)

/-- `FixedSuffixSliceTransform::new(8)`: strip the 8-byte suffix. -/
def sliceTransform (k : Bytes) : Bytes := k.take (k.length - 8)

/-- The cached-seek-prefix check of the iterator loops: stop when the
extracted prefix of `uk` differs from the cached one. -/
def pfxMismatch (pfx? : Option Bytes) (uk : Bytes) : Bool :=
  match pfx? with
  | some p => !decide (p = sliceTransform uk)
  | none => false

/-- `RegionCacheIterator::find_next_visible_key` (read.rs lines 289-338). -/
def find_next_visible_key (it : RegionCacheIterator) (skip : Bool)
    (fuel : Nat) : RegionCacheIterator :=
  match fuel with
  | 0 => { it with valid := false }
  | fuel + 1 =>
    match it.pos with
    | none => { it with valid := false }
    | some i =>
      if i < it.entries.length then
        let e := entAt it.entries i
        if ¬ bytesLt e.userKey it.upper_bound = true then
          { it with valid := false }
        else if pfxMismatch it.pfx e.userKey = true then
          { it with valid := false }
        else if e.seq ≤ it.sequence_number then
          if skip = true ∧ e.userKey = it.saved_user_key then
            find_next_visible_key
              { it with pos := posNext it.entries it.pos } skip fuel
          else
            match e.vType with
            | .deletion =>
              find_next_visible_key
                { it with saved_user_key := e.userKey,
                          pos := posNext it.entries it.pos } true fuel
            | .value =>
              { it with saved_user_key := e.userKey, valid := true }
        else if skip = true ∧ bytesLt it.saved_user_key e.userKey = true then
          find_next_visible_key
            { it with pos := posNext it.entries it.pos } false fuel
        else
          find_next_visible_key
            { it with pos := posNext it.entries it.pos } skip fuel
      else { it with valid := false }

/-- `RegionCacheIterator::seek_internal` (read.rs lines 344-353), with the
seek key decoded as `(k, s)`. -/
def seek_internal (it : RegionCacheIterator) (k : Bytes) (s : Nat) :
    RegionCacheIterator :=
  let it' := { it with pos := slSeek it.entries k s }
  match it'.pos with
  | some _ => find_next_visible_key it' false (it.entries.length + 1)
  | none => { it' with valid := false }

/-- The loop of `find_value_for_current_key` (read.rs lines 398-430),
carrying `last_key_entry_type`; returns the Rust function's return value
(`iter.valid()`) alongside the updated iterator. -/
def fvfck_loop (it : RegionCacheIterator) (last_type : VType) (fuel : Nat) :
    RegionCacheIterator × Bool :=
  match fuel with
  | 0 => ({ it with valid := false }, false)
  | fuel + 1 =>
    match it.pos with
    | none => ({ it with valid := decide (last_type = .value) }, false)
    | some i =>
      if i < it.entries.length then
        let e := entAt it.entries i
        if ¬ e.seq ≤ it.sequence_number ∨ ¬ it.saved_user_key = e.userKey then
          ({ it with valid := decide (last_type = .value) }, true)
        else
          let it' :=
            match e.vType with
            | .value => { it with saved_value := some e.val }
            | .deletion => { it with saved_value := none }
          fvfck_loop { it' with pos := posPrev it'.pos } e.vType fuel
      else ({ it with valid := decide (last_type = .value) }, true)

/-- `RegionCacheIterator::find_value_for_current_key`:
`last_key_entry_type` starts as `Deletion`. -/
def find_value_for_current_key (it : RegionCacheIterator) (fuel : Nat) :
    RegionCacheIterator × Bool :=
  fvfck_loop it .deletion fuel

/-- `RegionCacheIterator::find_user_key_before_saved`
(read.rs lines 434-448). -/
def find_user_key_before_saved (it : RegionCacheIterator) (fuel : Nat) :
    RegionCacheIterator :=
  match fuel with
  | 0 => it
  | fuel + 1 =>
    match it.pos with
    | none => it
    | some i =>
      if i < it.entries.length then
        let e := entAt it.entries i
        if bytesLt e.userKey it.saved_user_key = true then it
        else find_user_key_before_saved { it with pos := posPrev it.pos } fuel
      else find_user_key_before_saved { it with pos := posPrev it.pos } fuel

/-- `RegionCacheIterator::prev_internal` (read.rs lines 362-392). -/
def prev_internal (it : RegionCacheIterator) (fuel : Nat) :
    RegionCacheIterator :=
  match fuel with
  | 0 => { it with valid := false }
  | fuel + 1 =>
    match it.pos with
    | none => { it with valid := false }
    | some i =>
      if i < it.entries.length then
        let e := entAt it.entries i
        let it1 := { it with saved_user_key := e.userKey }
        if bytesLt e.userKey it.lower_bound = true then
          { it1 with valid := false }
        else if pfxMismatch it.pfx e.userKey = true then
          { it1 with valid := false }
        else
          let r := find_value_for_current_key it1 (it.entries.length + 1)
          if r.2 = false then r.1
          else
            let it3 := find_user_key_before_saved r.1 (it.entries.length + 1)
            if it3.valid = true then it3
            else prev_internal it3 fuel
      else { it with valid := false }

/-- `RegionCacheIterator::seek_for_prev_internal` (read.rs lines 355-360),
with the seek key decoded as `(k, s)`. -/
def seek_for_prev_internal (it : RegionCacheIterator) (k : Bytes) (s : Nat) :
    RegionCacheIterator :=
  let it' := { it with pos := slSeekForPrev it.entries k s }
  prev_internal it' (it.entries.length + 2)

/-- The forward walk of `reverse_to_forward` (read.rs lines 462-468). -/
def rtf_step (it : RegionCacheIterator) (fuel : Nat) : RegionCacheIterator :=
  match fuel with
  | 0 => it
  | fuel + 1 =>
    match it.pos with
    | none => it
    | some i =>
      if i < it.entries.length then
        let e := entAt it.entries i
        if ¬ bytesLt e.userKey it.saved_user_key = true then it
        else rtf_step { it with pos := posNext it.entries it.pos } fuel
      else it

/-- `RegionCacheIterator::reverse_to_forward` (read.rs lines 455-469). -/
def reverse_to_forward (it : RegionCacheIterator) : RegionCacheIterator :=
  let it :=
    if it.usePfx = true ∨ it.pos = none then
      { it with
        pos := slSeek it.entries it.saved_user_key MAX_SEQUENCE_NUMBER }
    else it
  let it := { it with direction := .Forward }
  rtf_step it (it.entries.length + 1)

/-- `RegionCacheIterator::reverse_to_backward` (read.rs lines 450-453). -/
def reverse_to_backward (it : RegionCacheIterator) : RegionCacheIterator :=
  let it := { it with direction := .Backward }
  find_user_key_before_saved it (it.entries.length + 1)

/-- `Iterator::next` for `RegionCacheIterator` (read.rs lines 487-512);
the caller must have `it.valid` (asserted in Rust). -/
def RegionCacheIterator.next (it : RegionCacheIterator) :
    RegionCacheIterator :=
  let it := if it.direction = .Backward then reverse_to_forward it else it
  let it := { it with pos := posNext it.entries it.pos }
  let it := { it with valid := it.pos.isSome }
  if it.valid = true then
    find_next_visible_key it true (it.entries.length + 1)
  else it

/-- `Iterator::prev` for `RegionCacheIterator` (read.rs lines 514-531);
the caller must have `it.valid`. -/
def RegionCacheIterator.prev (it : RegionCacheIterator) :
    RegionCacheIterator :=
  let it := if it.direction = .Forward then reverse_to_backward it else it
  prev_internal it (it.entries.length + 2)

/-- `Iterator::seek` (read.rs lines 533-557): clamp below the lower bound,
cache the seek prefix, then `seek_internal (encode_seek_key ...)`. -/
def RegionCacheIterator.seek (it : RegionCacheIterator) (key : Bytes) :
    RegionCacheIterator :=
  let it := { it with direction := .Forward }
  let it :=
    if it.usePfx = true then { it with pfx := some (sliceTransform key) }
    else it
  let seek_key :=
    if bytesLt key it.lower_bound = true then it.lower_bound else key
  seek_internal it seek_key it.sequence_number

/-- `Iterator::seek_for_prev` (read.rs lines 559-581): clamp targets above
the upper bound to `(upper_bound, u64::MAX)`, otherwise seek `(key, 0)`. -/
def RegionCacheIterator.seek_for_prev (it : RegionCacheIterator)
    (key : Bytes) : RegionCacheIterator :=
  let it := { it with direction := .Backward }
  let it :=
    if it.usePfx = true then { it with pfx := some (sliceTransform key) }
    else it
  if bytesLt it.upper_bound key = true then
    seek_for_prev_internal it it.upper_bound U64_MAX
  else
    seek_for_prev_internal it key 0

/-- `Iterator::seek_to_first` (read.rs lines 583-597): requires no
prefix extractor (asserted in Rust); equivalent to seeking the lower bound. -/
def RegionCacheIterator.seek_to_first (it : RegionCacheIterator) :
    RegionCacheIterator :=
  let it := { it with direction := .Forward }
  seek_internal it it.lower_bound it.sequence_number

/-- `Iterator::seek_to_last` (read.rs lines 599-617): requires no
prefix extractor; seek-for-prev of `(upper_bound, u64::MAX)`. -/
def RegionCacheIterator.seek_to_last (it : RegionCacheIterator) :
    RegionCacheIterator :=
  let it := { it with direction := .Backward }
  seek_for_prev_internal it it.upper_bound U64_MAX

/-- `Iterator::key` (read.rs lines 473-476): the saved user key
(caller must have `it.valid`). -/
def RegionCacheIterator.key (it : RegionCacheIterator) : Bytes :=
  it.saved_user_key

/-- `Iterator::value` (read.rs lines 478-485): the saved value when moving
backward, else the record under the underlying iterator. -/
def RegionCacheIterator.value (it : RegionCacheIterator) : Bytes :=
  if it.direction = .Backward then it.saved_value.getD []
  else
    match it.pos with
    | some i => (entAt it.entries i).val
    | none => []

/-- The iterator operations named by the spec. -/
inductive IterOp where
  | seek : Bytes → IterOp
  | seek_for_prev : Bytes → IterOp
  | seek_to_first : IterOp
  | seek_to_last : IterOp
  | next : IterOp
  | prev : IterOp

/-- Dispatch one iterator operation. -/
def stepIter (it : RegionCacheIterator) : IterOp → RegionCacheIterator
  | .seek k => it.seek k
  | .seek_for_prev k => it.seek_for_prev k
  | .seek_to_first => it.seek_to_first
  | .seek_to_last => it.seek_to_last
  | .next => it.next
  | .prev => it.prev

/-! ### Spec notions for the iterator -/

/-- Index `q` holds the newest visible record of its user key. -/
def topVisIdx (L : List Entry) (s : Nat) (q : Nat) : Prop :=
  q < L.length ∧ (entAt L q).seq ≤ s ∧
  ∀ j < q, (entAt L j).userKey = (entAt L q).userKey → ¬ (entAt L j).seq ≤ s

instance (L : List Entry) (s q : Nat) : Decidable (topVisIdx L s q) := by
  unfold topVisIdx; infer_instance

/-- Index `q` is *emittable*: the newest visible record of its user key,
and a `Value`. -/
def emitIdx (L : List Entry) (s : Nat) (q : Nat) : Prop :=
  topVisIdx L s q ∧ (entAt L q).vType = .value

instance (L : List Entry) (s q : Nat) : Decidable (emitIdx L s q) := by
  unfold emitIdx; infer_instance

/-- A newest-visible index realises `topVisible` of its user key. -/
theorem topVisIdx_topVisible {L : List Entry} {s : Nat} {q : Nat}
    (h : topVisIdx L s q) :
    topVisible L s (entAt L q).userKey = some (entAt L q) := by
  obtain ⟨hq, hvis, hfirst⟩ := h
  -- the head of the filtered list is the first index satisfying the filter
  suffices hsf : ∀ (M : List Entry) (r : Nat), r < M.length →
      (∀ j < r, ((fun e => decide (e.userKey = (entAt L q).userKey) &&
        decide (e.seq ≤ s)) (entAt M j)) = false) →
      ((fun e => decide (e.userKey = (entAt L q).userKey) &&
        decide (e.seq ≤ s)) (entAt M r)) = true →
      (M.filter (fun e => decide (e.userKey = (entAt L q).userKey) &&
        decide (e.seq ≤ s))).head? = some (entAt M r) by
    have := hsf L q hq ?_ ?_
    · exact this
    · intro j hj
      by_cases huk : (entAt L j).userKey = (entAt L q).userKey
      · simp [huk, hfirst j hj huk]
      · simp [huk]
    · simp [hvis]
  intro M
  induction M with
  | nil => intro r hr; simp at hr
  | cons e rest ih =>
    intro r hr hbefore hat
    cases r with
    | zero =>
      simp only [entAt_cons_zero] at hat
      simp [List.filter_cons, hat]
    | succ r' =>
      have h0 := hbefore 0 (Nat.succ_pos r')
      simp only [entAt_cons_zero] at h0
      have := ih r' (by simpa using Nat.lt_of_succ_lt_succ hr)
        (fun j hj => by simpa using hbefore (j + 1) (by omega))
        (by simpa using hat)
      simpa [List.filter_cons, h0] using this

/-- Precondition of the forward scan at position `p`: every visible record
before `p` either belongs to a strictly smaller user key than the record at
`p`, or is being skipped as the saved key. -/
def FwdPre (L : List Entry) (s : Nat) (p : Nat) (skip : Bool)
    (saved : Bytes) : Prop :=
  ∀ j < p, (entAt L j).seq ≤ s →
    bytesLt (entAt L j).userKey (entAt L p).userKey = true ∨
    (skip = true ∧ (entAt L j).userKey = saved)

/-- An invalid underlying iterator makes `find_next_visible_key` invalid. -/
theorem fnvk_none {it : RegionCacheIterator} {skip : Bool} {fuel : Nat}
    (hpos : it.pos = none) :
    find_next_visible_key it skip fuel = { it with valid := false } := by
  cases fuel <;> simp [find_next_visible_key, hpos]

theorem iter_eta_pos {it : RegionCacheIterator} {p : Nat}
    (h : it.pos = some p) (v : Bool) (sk : Bytes) :
    { it with valid := v, saved_user_key := sk } =
      { it with pos := some p, valid := v, saved_user_key := sk } := by
  rw [← h]

/-- Soundness (with exactness of the emitted position) of the forward scan:
whenever `find_next_visible_key` ends valid, it rests on the *first*
emittable record at-or-after its start that is not excluded by
`skip_saved_key`, and that record is the newest visible `Value` of its user
key, below the upper bound. -/
theorem fnvk_sound (fuel : Nat) :
    ∀ (it : RegionCacheIterator) (skip : Bool) (p : Nat),
    SortedEntries it.entries →
    it.pos = some p → p < it.entries.length →
    FwdPre it.entries it.sequence_number p skip it.saved_user_key →
    (skip = true →
      bytesLe it.saved_user_key (entAt it.entries p).userKey = true) →
    (find_next_visible_key it skip fuel).valid = true →
    ∃ q, find_next_visible_key it skip fuel =
        { it with pos := some q, valid := true,
                  saved_user_key := (entAt it.entries q).userKey } ∧
      p ≤ q ∧ q < it.entries.length ∧
      emitIdx it.entries it.sequence_number q ∧
      bytesLt (entAt it.entries q).userKey it.upper_bound = true ∧
      (skip = true → (entAt it.entries q).userKey ≠ it.saved_user_key) ∧
      (∀ r, p ≤ r → r < q →
        ¬ (emitIdx it.entries it.sequence_number r ∧
           (skip = true →
             (entAt it.entries r).userKey ≠ it.saved_user_key))) := by
  induction fuel with
  | zero =>
    intro it skip p _ _ _ _ _ hv
    simp [find_next_visible_key] at hv
  | succ fuel ih =>
    intro it skip p hs hpos hp hpre hsv hv
    rw [find_next_visible_key, hpos] at hv ⊢
    dsimp only at hv ⊢
    rw [if_pos hp] at hv ⊢
    simp only [posNext] at hv ⊢
    by_cases hub : bytesLt (entAt it.entries p).userKey it.upper_bound = true
    swap
    · rw [if_pos hub] at hv; simp at hv
    rw [if_neg (not_not_intro hub)] at hv ⊢
    by_cases hpm : pfxMismatch it.pfx (entAt it.entries p).userKey = true
    · rw [if_pos hpm] at hv; simp at hv
    rw [if_neg hpm] at hv ⊢
    by_cases hvis : (entAt it.entries p).seq ≤ it.sequence_number
    · rw [if_pos hvis] at hv ⊢
      by_cases hskip : skip = true ∧
          (entAt it.entries p).userKey = it.saved_user_key
      · -- the record repeats the skipped saved key: step over it
        rw [if_pos hskip] at hv ⊢
        by_cases hnext : p + 1 < it.entries.length
        swap
        · rw [if_neg hnext] at hv
          rw [fnvk_none rfl] at hv
          simp at hv
        rw [if_pos hnext] at hv ⊢
        have hle : bytesLe (entAt it.entries p).userKey
            (entAt it.entries (p + 1)).userKey = true :=
          sorted_uk_le hs (Nat.le_succ p) hnext
        obtain ⟨q, heq, hq1, hq2, hq3, hq4, hq5, hq6⟩ :=
          ih { it with pos := some (p + 1) } skip (p + 1) hs rfl hnext
            (by
              intro j hj hjv
              rcases Nat.lt_succ_iff_lt_or_eq.mp hj with hj' | rfl
              · rcases hpre j hj' hjv with h' | h'
                · exact Or.inl (bytesLt_of_lt_of_le h' hle)
                · exact Or.inr h'
              · exact Or.inr ⟨hskip.1, hskip.2⟩)
            (fun hsk => by
              rw [← hskip.2]
              exact hle)
            hv
        refine ⟨q, heq, by omega, hq2, hq3, hq4, hq5, ?_⟩
        intro r hr1 hr2
        rcases Nat.eq_or_lt_of_le hr1 with rfl | hr1'
        · intro ⟨_, hex⟩
          exact hex hskip.1 hskip.2
        · exact hq6 r hr1' hr2
      · rw [if_neg hskip] at hv ⊢
        -- the first visible record of a fresh user key decides the group
        have htop : topVisIdx it.entries it.sequence_number p := by
          refine ⟨hp, hvis, ?_⟩
          intro j hj huk hjv
          rcases hpre j hj hjv with h' | h'
          · exact absurd huk (bytesLt_ne h')
          · exact hskip ⟨h'.1, huk.symm.trans h'.2⟩
        by_cases hvt : (entAt it.entries p).vType = .value
        · rw [hvt] at hv ⊢
          dsimp only at hv ⊢
          refine ⟨p, rfl, le_refl p, hp, ⟨htop, hvt⟩, hub, ?_, ?_⟩
          · intro hsk
            intro hc
            exact hskip ⟨hsk, hc⟩
          · intro r hr1 hr2; omega
        · have hvt' : (entAt it.entries p).vType = .deletion := by
            cases hx : (entAt it.entries p).vType
            · rfl
            · exact absurd hx hvt
          rw [hvt'] at hv ⊢
          dsimp only at hv ⊢
          by_cases hnext : p + 1 < it.entries.length
          swap
          · rw [if_neg hnext] at hv
            rw [fnvk_none rfl] at hv
            simp at hv
          rw [if_pos hnext] at hv ⊢
          have hle : bytesLe (entAt it.entries p).userKey
              (entAt it.entries (p + 1)).userKey = true :=
            sorted_uk_le hs (Nat.le_succ p) hnext
          obtain ⟨q, heq, hq1, hq2, hq3, hq4, hq5, hq6⟩ :=
            ih { it with saved_user_key := (entAt it.entries p).userKey,
                         pos := some (p + 1) } true (p + 1) hs rfl hnext
              (by
                intro j hj hjv
                rcases Nat.lt_succ_iff_lt_or_eq.mp hj with hj' | rfl
                · rcases hpre j hj' hjv with h' | h'
                  · exact Or.inl (bytesLt_of_lt_of_le h' hle)
                  · -- the old saved key sits at or below the deleted key
                    rcases bytesLe_iff.mp
                        (sorted_uk_le hs (Nat.le_of_lt hj') hp) with hlt | heq'
                    · rw [h'.2] at hlt ⊢
                      exact Or.inl (bytesLt_of_lt_of_le hlt hle)
                    · exact Or.inr ⟨rfl, heq'⟩
                · exact Or.inr ⟨rfl, rfl⟩)
              (fun _ => hle)
              hv
          have hqne : (entAt it.entries q).userKey ≠
              (entAt it.entries p).userKey := hq5 rfl
          refine ⟨q, heq, by omega, hq2, hq3, hq4, ?_, ?_⟩
          · intro hsk hc
            -- the emitted key is strictly above the deleted key, which is
            -- at or above the old saved key
            have h1 : bytesLe (entAt it.entries p).userKey
                (entAt it.entries q).userKey = true :=
              sorted_uk_le hs (by omega) hq2
            have h2 : bytesLt (entAt it.entries p).userKey
                (entAt it.entries q).userKey = true := by
              rcases bytesLe_iff.mp h1 with h' | h'
              · exact h'
              · exact absurd h'.symm hqne
            have h3 : bytesLe it.saved_user_key
                (entAt it.entries p).userKey = true := hsv hsk
            have h4 := bytesLt_of_le_of_lt h3 h2
            rw [hc] at h4
            rw [bytesLt_irrefl] at h4
            exact Bool.noConfusion h4
          · intro r hr1 hr2 ⟨hemit, _⟩
            rcases Nat.eq_or_lt_of_le hr1 with rfl | hr1'
            · exact VType.noConfusion (hvt'.symm.trans hemit.2)
            · -- between the deletion and the emitted key nothing is the
              -- newest visible record of a fresh key
              refine hq6 r hr1' hr2 ⟨hemit, ?_⟩
              intro _ hc
              exact hemit.1.2.2 p (by omega) (by rw [hc]) hvis
    · rw [if_neg hvis] at hv ⊢
      by_cases hnext : p + 1 < it.entries.length
      swap
      · by_cases hrs : skip = true ∧
            bytesLt it.saved_user_key (entAt it.entries p).userKey = true
        · rw [if_pos hrs, if_neg hnext] at hv
          rw [fnvk_none rfl] at hv; simp at hv
        · rw [if_neg hrs, if_neg hnext] at hv
          rw [fnvk_none rfl] at hv; simp at hv
      have hle : bytesLe (entAt it.entries p).userKey
          (entAt it.entries (p + 1)).userKey = true :=
        sorted_uk_le hs (Nat.le_succ p) hnext
      by_cases hrs : skip = true ∧
          bytesLt it.saved_user_key (entAt it.entries p).userKey = true
      · -- an invisible record of a key above the saved key resets the skip
        rw [if_pos hrs, if_pos hnext] at hv ⊢
        obtain ⟨q, heq, hq1, hq2, hq3, hq4, hq5, hq6⟩ :=
          ih { it with pos := some (p + 1) } false (p + 1) hs rfl hnext
            (by
              intro j hj hjv
              rcases Nat.lt_succ_iff_lt_or_eq.mp hj with hj' | rfl
              · rcases hpre j hj' hjv with h' | h'
                · exact Or.inl (bytesLt_of_lt_of_le h' hle)
                · rw [h'.2]
                  exact Or.inl (bytesLt_of_lt_of_le hrs.2 hle)
              · exact absurd hjv hvis)
            (by intro h; exact Bool.noConfusion h)
            hv
        have hsq : bytesLt it.saved_user_key
            (entAt it.entries q).userKey = true :=
          bytesLt_of_lt_of_le hrs.2 (sorted_uk_le hs (by omega) hq2)
        refine ⟨q, heq, by omega, hq2, hq3, hq4, ?_, ?_⟩
        · intro _ hc
          rw [hc] at hsq
          rw [bytesLt_irrefl] at hsq
          exact Bool.noConfusion hsq
        · intro r hr1 hr2 ⟨hemit, _⟩
          rcases Nat.eq_or_lt_of_le hr1 with rfl | hr1'
          · exact hvis hemit.1.2.1
          · exact hq6 r hr1' hr2 ⟨hemit, fun h => Bool.noConfusion h⟩
      · rw [if_neg hrs, if_pos hnext] at hv ⊢
        obtain ⟨q, heq, hq1, hq2, hq3, hq4, hq5, hq6⟩ :=
          ih { it with pos := some (p + 1) } skip (p + 1) hs rfl hnext
            (by
              intro j hj hjv
              rcases Nat.lt_succ_iff_lt_or_eq.mp hj with hj' | rfl
              · rcases hpre j hj' hjv with h' | h'
                · exact Or.inl (bytesLt_of_lt_of_le h' hle)
                · exact Or.inr h'
              · exact absurd hjv hvis)
            (fun hsk => bytesLe_trans (hsv hsk) hle)
            hv
        refine ⟨q, heq, by omega, hq2, hq3, hq4, hq5, ?_⟩
        intro r hr1 hr2 hcon
        rcases Nat.eq_or_lt_of_le hr1 with rfl | hr1'
        · exact hvis hcon.1.1.2.1
        · exact hq6 r hr1' hr2 hcon

/-- Completeness of the forward scan (no seek prefix): given the first
non-excluded emittable record `q` below the upper bound at-or-after the scan
start, `find_next_visible_key` ends exactly on it. -/
theorem fnvk_emits (fuel : Nat) :
    ∀ (it : RegionCacheIterator) (skip : Bool) (p q : Nat),
    SortedEntries it.entries →
    it.pos = some p → p < it.entries.length →
    it.pfx = none →
    it.entries.length - p < fuel →
    FwdPre it.entries it.sequence_number p skip it.saved_user_key →
    (skip = true →
      bytesLe it.saved_user_key (entAt it.entries p).userKey = true) →
    p ≤ q → q < it.entries.length →
    emitIdx it.entries it.sequence_number q →
    bytesLt (entAt it.entries q).userKey it.upper_bound = true →
    (skip = true → (entAt it.entries q).userKey ≠ it.saved_user_key) →
    (∀ r, p ≤ r → r < q →
      ¬ (emitIdx it.entries it.sequence_number r ∧
         (skip = true →
           (entAt it.entries r).userKey ≠ it.saved_user_key))) →
    find_next_visible_key it skip fuel =
      { it with pos := some q, valid := true,
                saved_user_key := (entAt it.entries q).userKey } := by
  induction fuel with
  | zero =>
    intro it skip p q _ _ hp _ hfuel _ _ _ _ _ _ _ _
    omega
  | succ fuel ih =>
    intro it skip p q hs hpos hp hpfx hfuel hpre hsv hpq hq hqe hqu hqx hqm
    have hub : bytesLt (entAt it.entries p).userKey it.upper_bound = true :=
      bytesLt_of_le_of_lt (sorted_uk_le hs hpq hq) hqu
    rw [find_next_visible_key, hpos]
    dsimp only
    rw [if_pos hp]
    simp only [posNext]
    rw [if_neg (not_not_intro hub)]
    rw [if_neg (by simp [pfxMismatch, hpfx])]
    by_cases hvis : (entAt it.entries p).seq ≤ it.sequence_number
    · rw [if_pos hvis]
      by_cases hskip : skip = true ∧
          (entAt it.entries p).userKey = it.saved_user_key
      · rw [if_pos hskip]
        have hqp : p < q := by
          rcases Nat.eq_or_lt_of_le hpq with rfl | h
          · exact absurd hskip.2 (hqx hskip.1)
          · exact h
        have hnext : p + 1 < it.entries.length := by omega
        rw [if_pos hnext]
        have hle : bytesLe (entAt it.entries p).userKey
            (entAt it.entries (p + 1)).userKey = true :=
          sorted_uk_le hs (Nat.le_succ p) hnext
        exact ih { it with pos := some (p + 1) } skip (p + 1) q hs rfl hnext
          hpfx (by show it.entries.length - (p + 1) < fuel; omega)
          (by
            intro j hj hjv
            rcases Nat.lt_succ_iff_lt_or_eq.mp hj with hj' | rfl
            · rcases hpre j hj' hjv with h' | h'
              · exact Or.inl (bytesLt_of_lt_of_le h' hle)
              · exact Or.inr h'
            · exact Or.inr ⟨hskip.1, hskip.2⟩)
          (fun _ => by rw [← hskip.2]; exact hle)
          (by omega) hq hqe hqu hqx
          (fun r hr1 hr2 => hqm r (by omega) hr2)
      · rw [if_neg hskip]
        have htop : topVisIdx it.entries it.sequence_number p := by
          refine ⟨hp, hvis, ?_⟩
          intro j hj huk hjv
          rcases hpre j hj hjv with h' | h'
          · exact absurd huk (bytesLt_ne h')
          · exact hskip ⟨h'.1, huk.symm.trans h'.2⟩
        by_cases hqp : q = p
        · subst hqp
          rw [hqe.2]
        · have hqp' : p < q := by omega
          have hvtp : (entAt it.entries p).vType = .deletion := by
            cases hx : (entAt it.entries p).vType
            · rfl
            · exact absurd ⟨⟨htop, hx⟩, fun hsk hc => hskip ⟨hsk, hc⟩⟩
                (hqm p (le_refl p) hqp')
          rw [hvtp]
          dsimp only
          have hnext : p + 1 < it.entries.length := by omega
          rw [if_pos hnext]
          have hle : bytesLe (entAt it.entries p).userKey
              (entAt it.entries (p + 1)).userKey = true :=
            sorted_uk_le hs (Nat.le_succ p) hnext
          have hqnep : (entAt it.entries q).userKey ≠
              (entAt it.entries p).userKey := by
            intro hc
            exact hqe.1.2.2 p hqp' (by rw [hc]) hvis
          exact ih { it with
              saved_user_key := (entAt it.entries p).userKey,
              pos := some (p + 1) } true (p + 1) q hs rfl hnext hpfx (by show it.entries.length - (p + 1) < fuel; omega)
            (by
              intro j hj hjv
              rcases Nat.lt_succ_iff_lt_or_eq.mp hj with hj' | rfl
              · rcases hpre j hj' hjv with h' | h'
                · exact Or.inl (bytesLt_of_lt_of_le h' hle)
                · rcases bytesLe_iff.mp
                      (sorted_uk_le hs (Nat.le_of_lt hj') hp) with hlt | heq'
                  · rw [h'.2] at hlt ⊢
                    exact Or.inl (bytesLt_of_lt_of_le hlt hle)
                  · exact Or.inr ⟨rfl, heq'⟩
              · exact Or.inr ⟨rfl, rfl⟩)
            (fun _ => hle)
            (by omega) hq hqe hqu
            (fun _ => hqnep)
            (by
              intro r hr1 hr2 ⟨hemit, hx⟩
              refine hqm r (by omega) hr2 ⟨hemit, ?_⟩
              intro hsk hc
              -- a candidate between the deleted key and `q` carries a key
              -- strictly above the deleted one, hence above the saved key
              have h1 : bytesLe (entAt it.entries p).userKey
                  (entAt it.entries r).userKey = true :=
                sorted_uk_le hs (by omega) (by omega)
              have h2 : bytesLt (entAt it.entries p).userKey
                  (entAt it.entries r).userKey = true := by
                rcases bytesLe_iff.mp h1 with h' | h'
                · exact h'
                · exact absurd h'.symm (hx rfl)
              have h3 := bytesLt_of_le_of_lt (hsv hsk) h2
              rw [hc] at h3
              rw [bytesLt_irrefl] at h3
              exact Bool.noConfusion h3)
    · rw [if_neg hvis]
      have hqp : p < q := by
        rcases Nat.eq_or_lt_of_le hpq with rfl | h
        · exact absurd hqe.1.2.1 hvis
        · exact h
      have hnext : p + 1 < it.entries.length := by omega
      rw [if_pos hnext]
      have hle : bytesLe (entAt it.entries p).userKey
          (entAt it.entries (p + 1)).userKey = true :=
        sorted_uk_le hs (Nat.le_succ p) hnext
      by_cases hrs : skip = true ∧
          bytesLt it.saved_user_key (entAt it.entries p).userKey = true
      · rw [if_pos hrs]
        exact ih { it with pos := some (p + 1) } false (p + 1) q hs rfl hnext
          hpfx (by show it.entries.length - (p + 1) < fuel; omega)
          (by
            intro j hj hjv
            rcases Nat.lt_succ_iff_lt_or_eq.mp hj with hj' | rfl
            · rcases hpre j hj' hjv with h' | h'
              · exact Or.inl (bytesLt_of_lt_of_le h' hle)
              · rw [h'.2]
                exact Or.inl (bytesLt_of_lt_of_le hrs.2 hle)
            · exact absurd hjv hvis)
          (fun h => Bool.noConfusion h)
          (by omega) hq hqe hqu
          (fun h => Bool.noConfusion h)
          (by
            intro r hr1 hr2 ⟨hemit, _⟩
            refine hqm r (by omega) hr2 ⟨hemit, ?_⟩
            intro hsk hc
            have h1 : bytesLt it.saved_user_key
                (entAt it.entries r).userKey = true :=
              bytesLt_of_lt_of_le hrs.2 (sorted_uk_le hs (by omega) (by omega))
            rw [hc] at h1
            rw [bytesLt_irrefl] at h1
            exact Bool.noConfusion h1)
      · rw [if_neg hrs]
        exact ih { it with pos := some (p + 1) } skip (p + 1) q hs rfl hnext
          hpfx (by show it.entries.length - (p + 1) < fuel; omega)
          (by
            intro j hj hjv
            rcases Nat.lt_succ_iff_lt_or_eq.mp hj with hj' | rfl
            · rcases hpre j hj' hjv with h' | h'
              · exact Or.inl (bytesLt_of_lt_of_le h' hle)
              · exact Or.inr h'
            · exact absurd hjv hvis)
          (fun hsk => bytesLe_trans (hsv hsk) hle)
          (by omega) hq hqe hqu hqx
          (fun r hr1 hr2 => hqm r (by omega) hr2)

/-- `pos` rests just below every record of user key `k`: either nothing is
below `k`, or `pos` is the last index whose key is below `k`. -/
def posBelowKey (L : List Entry) (k : Bytes) (pos : Option Nat) : Prop :=
  match pos with
  | none => ∀ j < L.length, ¬ bytesLt (entAt L j).userKey k = true
  | some q => q < L.length ∧ bytesLt (entAt L q).userKey k = true ∧
      ∀ j, q < j → j < L.length → ¬ bytesLt (entAt L j).userKey k = true

/-- Every record after index `p` has a strictly larger user key (`p` is the
oldest record of its user-key group). -/
def groupEndAt (L : List Entry) (p : Nat) : Prop :=
  ∀ i, p < i → i < L.length →
    bytesLt (entAt L p).userKey (entAt L i).userKey = true

/-- The backward value walk breaks immediately on an invisible record or a
changed user key. -/
theorem fvfck_loop_break {it : RegionCacheIterator} {last : VType}
    {fuel : Nat} {p : Nat} (hpos : it.pos = some p)
    (hp : p < it.entries.length)
    (hbr : ¬ ((entAt it.entries p).seq ≤ it.sequence_number ∧
      it.saved_user_key = (entAt it.entries p).userKey))
    (hfuel : 0 < fuel) :
    fvfck_loop it last fuel = ({ it with valid := decide (last = .value) }, true) := by
  cases fuel with
  | zero => omega
  | succ fuel =>
    rw [fvfck_loop, hpos]
    dsimp only
    rw [if_pos hp]
    rw [if_pos (by
      by_cases h1 : (entAt it.entries p).seq ≤ it.sequence_number
      · exact Or.inr (fun hc => hbr ⟨h1, hc⟩)
      · exact Or.inl h1)]

/-- The backward value walk over the visible run `[t, p]` of the saved user
key: the run ends at the newest visible record `t`, whose type decides
validity and whose value (if any) is saved; the underlying iterator is left
one step above `t`. -/
theorem fvfck_loop_run (fuel : Nat) :
    ∀ (it : RegionCacheIterator) (last : VType) (p t : Nat),
    it.pos = some p → p < it.entries.length →
    p + 2 ≤ fuel →
    t ≤ p →
    (∀ j, t ≤ j → j ≤ p →
      (entAt it.entries j).userKey = it.saved_user_key ∧
      (entAt it.entries j).seq ≤ it.sequence_number) →
    (t = 0 ∨ ¬ ((entAt it.entries (t - 1)).seq ≤ it.sequence_number ∧
      it.saved_user_key = (entAt it.entries (t - 1)).userKey)) →
    fvfck_loop it last fuel =
      ({ it with
          saved_value :=
            match (entAt it.entries t).vType with
            | .value => some (entAt it.entries t).val
            | .deletion => none,
          pos := if t = 0 then none else some (t - 1),
          valid := decide ((entAt it.entries t).vType = .value) },
        decide (0 < t)) := by
  induction fuel with
  | zero =>
    intro it last p t _ _ hfuel _ _ _
    omega
  | succ fuel ih =>
    intro it last p t hpos hp hfuel ht hrun hbelow
    have hcur := hrun p ht (le_refl p)
    rw [fvfck_loop, hpos]
    dsimp only
    rw [if_pos hp]
    rw [if_neg (by push_neg; exact ⟨hcur.2, hcur.1.symm⟩)]
    have hvt : (entAt it.entries p).vType = .value ∨
        (entAt it.entries p).vType = .deletion := by
      cases hx : (entAt it.entries p).vType
      · exact Or.inr rfl
      · exact Or.inl rfl
    rcases hvt with hvt | hvt
    · rw [hvt]
      dsimp only [posPrev]
      rcases Nat.eq_or_lt_of_le ht with rfl | htp
      · cases t with
        | zero =>
          rw [if_pos rfl]
          cases fuel with
          | zero => omega
          | succ fuel' =>
            rw [fvfck_loop]
            simp [hvt]
        | succ p' =>
          rw [if_neg (by omega)]
          simp only [Nat.add_sub_cancel]
          rw [@fvfck_loop_break
            { it with saved_value := some (entAt it.entries (p' + 1)).val,
                      pos := some p' } VType.value fuel p' rfl
            (show p' < it.entries.length by omega)
            (by
              rcases hbelow with h | h
              · omega
              · simpa using h)
            (by omega)]
          simp [hvt]
      · rw [if_neg (by omega)]
        exact ih
          { it with saved_value := some (entAt it.entries p).val,
                    pos := some (p - 1) } VType.value (p - 1) t rfl
          (show p - 1 < it.entries.length by omega)
          (by omega) (by omega)
          (fun j hj1 hj2 => hrun j hj1 (by omega)) hbelow
    · rw [hvt]
      dsimp only [posPrev]
      rcases Nat.eq_or_lt_of_le ht with rfl | htp
      · cases t with
        | zero =>
          rw [if_pos rfl]
          cases fuel with
          | zero => omega
          | succ fuel' =>
            rw [fvfck_loop]
            simp [hvt]
        | succ p' =>
          rw [if_neg (by omega)]
          simp only [Nat.add_sub_cancel]
          rw [@fvfck_loop_break
            { it with saved_value := none,
                      pos := some p' } VType.deletion fuel p' rfl
            (show p' < it.entries.length by omega)
            (by
              rcases hbelow with h | h
              · omega
              · simpa using h)
            (by omega)]
          simp [hvt]
      · rw [if_neg (by omega)]
        exact ih
          { it with saved_value := none,
                    pos := some (p - 1) } VType.deletion (p - 1) t rfl
          (show p - 1 < it.entries.length by omega)
          (by omega) (by omega)
          (fun j hj1 hj2 => hrun j hj1 (by omega)) hbelow

theorem fubs_none {it : RegionCacheIterator} {fuel : Nat}
    (hpos : it.pos = none) :
    find_user_key_before_saved it fuel = it := by
  cases fuel <;> simp [find_user_key_before_saved, hpos]

/-- `find_user_key_before_saved` walks the underlying iterator down to just
below every record of the saved user key. -/
theorem fubs_spec (fuel : Nat) :
    ∀ (it : RegionCacheIterator) (q : Nat),
    it.pos = some q → q < it.entries.length →
    q + 2 ≤ fuel →
    (∀ i, q < i → i < it.entries.length →
      bytesLe it.saved_user_key (entAt it.entries i).userKey = true) →
    ∃ R, find_user_key_before_saved it fuel = { it with pos := R } ∧
      posBelowKey it.entries it.saved_user_key R := by
  induction fuel with
  | zero =>
    intro it q _ _ hfuel _
    omega
  | succ fuel ih =>
    intro it q hpos hq hfuel habove
    rw [find_user_key_before_saved, hpos]
    dsimp only
    rw [if_pos hq]
    by_cases hlt : bytesLt (entAt it.entries q).userKey it.saved_user_key = true
    · rw [if_pos hlt]
      refine ⟨some q, by rw [← hpos], hq, hlt, ?_⟩
      intro j hj1 hj2
      simp [bytesNot_lt_of_le (habove j hj1 hj2)]
    · rw [if_neg hlt]
      dsimp only [posPrev]
      have hge : bytesLe it.saved_user_key (entAt it.entries q).userKey = true := by
        rcases bytesLt_trichotomy (entAt it.entries q).userKey
            it.saved_user_key with h | h | h
        · exact absurd h hlt
        · exact bytesLe_iff.mpr (Or.inr h.symm)
        · exact bytesLe_of_lt h
      rcases Nat.eq_zero_or_pos q with rfl | hq0
      · rw [if_pos rfl]
        refine ⟨none, fubs_none rfl, ?_⟩
        intro j hj
        rcases Nat.eq_zero_or_pos j with rfl | hj0
        · simp [bytesNot_lt_of_le hge]
        · have h2 := habove j (by omega) hj
          simp [bytesNot_lt_of_le h2]
      · rw [if_neg (by omega)]
        obtain ⟨R, heq, hpb⟩ := ih { it with pos := some (q - 1) } (q - 1) rfl
          (show q - 1 < it.entries.length by omega) (by omega)
          (by
            intro i hi1 hi2
            rcases Nat.eq_or_lt_of_le (show q ≤ i by omega) with h | h
            · show bytesLe it.saved_user_key (entAt it.entries i).userKey = true
              rw [← h]
              exact hge
            · exact habove i h hi2)
        exact ⟨R, heq, hpb⟩

theorem prev_internal_none {it : RegionCacheIterator} {fuel : Nat}
    (hpos : it.pos = none) :
    prev_internal it fuel = { it with valid := false } := by
  cases fuel <;> simp [prev_internal, hpos]

/-- The newest visible record of a key is unique per key. -/
theorem emitIdx_unique {L : List Entry} {s : Nat} {t t' : Nat}
    (h : topVisIdx L s t) (h' : topVisIdx L s t')
    (huk : (entAt L t).userKey = (entAt L t').userKey) : t = t' := by
  rcases Nat.lt_trichotomy t t' with hlt | heq | hlt
  · exact absurd h.2.1 (h'.2.2 t hlt huk)
  · exact heq
  · exact absurd h'.2.1 (h.2.2 t' hlt huk.symm)

/-- Every visible group end has a newest visible record `t`, with the whole
run `[t, p]` visible and on the same user key, and the walk boundary just
above `t`. -/
theorem groupTop_exists {L : List Entry} {s : Nat} {p : Nat}
    (hs : SortedEntries L) (hp : p < L.length)
    (hvis : (entAt L p).seq ≤ s) :
    ∃ t, t ≤ p ∧ (entAt L t).userKey = (entAt L p).userKey ∧
      topVisIdx L s t ∧
      (∀ j, t ≤ j → j ≤ p →
        (entAt L j).userKey = (entAt L p).userKey ∧ (entAt L j).seq ≤ s) ∧
      (t = 0 ∨ ¬ ((entAt L (t - 1)).seq ≤ s ∧
        (entAt L p).userKey = (entAt L (t - 1)).userKey)) := by
  classical
  have hex : ∃ j, (entAt L j).userKey = (entAt L p).userKey ∧
      (entAt L j).seq ≤ s := ⟨p, rfl, hvis⟩
  refine ⟨Nat.find hex, Nat.find_min' hex ⟨rfl, hvis⟩, (Nat.find_spec hex).1,
    ⟨?_, (Nat.find_spec hex).2, ?_⟩, ?_, ?_⟩
  · exact lt_of_le_of_lt (Nat.find_min' hex ⟨rfl, hvis⟩) hp
  · intro j hj huk hjv
    exact Nat.find_min hex hj ⟨huk.trans (Nat.find_spec hex).1, hjv⟩
  · intro j hj1 hj2
    have huk : (entAt L j).userKey = (entAt L p).userKey := by
      have h1 := sorted_group_contiguous hs hj1 hj2 hp (Nat.find_spec hex).1
      exact h1.trans (Nat.find_spec hex).1
    refine ⟨huk, ?_⟩
    rcases Nat.eq_or_lt_of_le hj1 with h | h
    · rw [← h]; exact (Nat.find_spec hex).2
    · have hseq := sorted_seq_lt hs h (by omega)
        (((Nat.find_spec hex).1).trans huk.symm)
      exact le_trans (Nat.le_of_lt hseq) (Nat.find_spec hex).2
  · rcases Nat.eq_zero_or_pos (Nat.find hex) with h0 | h0
    · exact Or.inl h0
    · right
      intro ⟨hv, hueq⟩
      exact Nat.find_min hex (by omega) ⟨hueq.symm, hv⟩

/-- Soundness (with maximality of the emitted position) of the backward walk:
whenever `prev_internal` ends valid, the saved key holds the newest visible
record of some user key at or below the starting key and at or above the
lower bound, that record is a `Value` whose value is saved, the underlying
iterator rests below the emitted key, and no record strictly between the
emitted one and the start is emittable. -/
theorem prev_internal_sound (fuel : Nat) :
    ∀ (it : RegionCacheIterator) (p : Nat),
    SortedEntries it.entries →
    it.pos = some p → p < it.entries.length →
    (prev_internal it fuel).valid = true →
    ∃ t R, prev_internal it fuel =
        { it with saved_user_key := (entAt it.entries t).userKey,
                  saved_value := some (entAt it.entries t).val,
                  valid := true, pos := R } ∧
      t < it.entries.length ∧
      emitIdx it.entries it.sequence_number t ∧
      bytesLe it.lower_bound (entAt it.entries t).userKey = true ∧
      bytesLe (entAt it.entries t).userKey (entAt it.entries p).userKey = true ∧
      posBelowKey it.entries (entAt it.entries t).userKey R ∧
      (∀ r, t < r → r ≤ p → ¬ emitIdx it.entries it.sequence_number r) := by
  induction fuel with
  | zero =>
    intro it p _ _ _ hv
    simp [prev_internal] at hv
  | succ fuel ih =>
    intro it p hs hpos hp hv
    rw [prev_internal, hpos] at hv ⊢
    dsimp only at hv ⊢
    rw [if_pos hp] at hv ⊢
    by_cases hlow : bytesLt (entAt it.entries p).userKey it.lower_bound = true
    · rw [if_pos hlow] at hv; simp at hv
    rw [if_neg hlow] at hv ⊢
    by_cases hpm : pfxMismatch it.pfx (entAt it.entries p).userKey = true
    · rw [if_pos hpm] at hv; simp at hv
    rw [if_neg hpm] at hv ⊢
    have hlow' : bytesLe it.lower_bound (entAt it.entries p).userKey = true := by
      simpa [bytesLe] using hlow
    rw [find_value_for_current_key] at hv ⊢
    have hgele : ∀ i, p < i → i < it.entries.length →
        bytesLe (entAt it.entries p).userKey (entAt it.entries i).userKey
          = true := fun i h1 h2 => sorted_uk_le hs (Nat.le_of_lt h1) h2
    by_cases hvisp : (entAt it.entries p).seq ≤ it.sequence_number
    · -- the group under the cursor has a visible newest record `t0`
      obtain ⟨t0, ht0p, huk0, htop0, hrun0, hbelow0⟩ :=
        groupTop_exists hs hp hvisp
      rw [@fvfck_loop_run (it.entries.length + 1)
        { it with saved_user_key := (entAt it.entries p).userKey,
                  pos := some p }
        VType.deletion p t0 rfl hp (by omega) ht0p
        (fun j h1 h2 => hrun0 j h1 h2) hbelow0] at hv ⊢
      rcases Nat.eq_zero_or_pos t0 with ht00 | ht00
      · -- the whole group is above position 0: the walk exits the store
        subst ht00
        rw [if_pos rfl] at hv ⊢
        rw [if_pos (by simp)] at hv ⊢
        dsimp only at hv
        have hvt : (entAt it.entries 0).vType = .value := by
          simpa using hv
        refine ⟨0, none, ?_, by omega, ⟨htop0, hvt⟩, ?_, ?_, ?_, ?_⟩
        · rw [hvt]
          simp [huk0, hvt]
        · rw [huk0]; exact hlow'
        · exact bytesLe_iff.mpr (Or.inr huk0)
        · intro j hj
          rw [huk0]
          rcases le_or_lt j p with hjp | hjp
          · have := (hrun0 j (by omega) hjp).1
            simp [this, bytesLt_irrefl]
          · simp [bytesNot_lt_of_le (sorted_uk_le hs (Nat.le_of_lt hjp) hj)]
        · intro r h1 h2 hr
          have h0 := hrun0 0 (by omega) (by omega)
          have hruk := hrun0 r (by omega) h2
          exact hr.1.2.2 0 h1 (h0.1.trans hruk.1.symm) h0.2
      · rw [show (if t0 = 0 then (none : Option Nat) else some (t0 - 1))
            = some (t0 - 1) from if_neg (by omega)] at hv ⊢
        rw [show (decide (0 < t0)) = true from decide_eq_true ht00] at hv ⊢
        dsimp only at hv ⊢
        rw [if_neg (show ¬(true = false) by decide)] at hv ⊢
        obtain ⟨R, heqF, hpb⟩ := fubs_spec (it.entries.length + 1)
          { it with saved_user_key := (entAt it.entries p).userKey,
                    pos := some (t0 - 1),
                    saved_value :=
                      match (entAt it.entries t0).vType with
                      | .value => some (entAt it.entries t0).val
                      | .deletion => none,
                    valid := decide ((entAt it.entries t0).vType = .value) }
          (t0 - 1) rfl (by show t0 - 1 < it.entries.length; omega)
          (by show t0 - 1 + 2 ≤ it.entries.length + 1; omega)
          (by
            intro i hi1 hi2
            show bytesLe (entAt it.entries p).userKey
              (entAt it.entries i).userKey = true
            rcases le_or_lt i p with hip | hip
            · exact bytesLe_iff.mpr (Or.inr ((hrun0 i (by omega) hip).1).symm)
            · exact hgele i hip hi2)
        rw [heqF] at hv ⊢
        dsimp only at hv ⊢
        by_cases hvt : (entAt it.entries t0).vType = .value
        · rw [show (decide ((entAt it.entries t0).vType = VType.value)) = true
            from decide_eq_true hvt] at hv ⊢
          rw [if_pos (show (true : Bool) = true from rfl)] at hv ⊢
          refine ⟨t0, R, ?_, by omega, ⟨htop0, hvt⟩, ?_, ?_, ?_, ?_⟩
          · rw [hvt, huk0]
          · rw [huk0]; exact hlow'
          · exact bytesLe_iff.mpr (Or.inr huk0)
          · rw [huk0]; exact hpb
          · intro r h1 h2 hr
            have hruk := hrun0 r (by omega) h2
            exact hr.1.2.2 t0 h1 (huk0.trans hruk.1.symm)
              (hrun0 t0 (le_refl t0) ht0p).2
        · have hvt' : (entAt it.entries t0).vType = .deletion := by
            cases hx : (entAt it.entries t0).vType
            · rfl
            · exact absurd hx hvt
          rw [show (decide ((entAt it.entries t0).vType = VType.value)) = false
            from by simp [hvt']] at hv ⊢
          rw [if_neg (show ¬(false = true) by decide)] at hv ⊢
          cases hR : R with
          | none =>
            rw [hR] at hv
            rw [prev_internal_none rfl] at hv
            simp at hv
          | some q' =>
            rw [hR] at hv
            rw [hR] at hpb
            have hq' : q' < it.entries.length := hpb.1
            obtain ⟨t, R', heq2, hA, hB, hC, hD, hE, hF⟩ := ih
              { it with pos := some q', valid := false,
                        saved_user_key := (entAt it.entries p).userKey,
                        saved_value :=
                          match (entAt it.entries t0).vType with
                          | .value => some (entAt it.entries t0).val
                          | .deletion => none }
              q' hs rfl hq' hv
            refine ⟨t, R', heq2, hA, hB, hC,
              bytesLe_trans hD (bytesLe_of_lt hpb.2.1), hE, ?_⟩
            intro r h1 h2
            rcases le_or_lt r q' with hrq | hrq
            · exact hF r h1 hrq
            · intro hr
              have hnlt : ¬ bytesLt (entAt it.entries r).userKey
                  (entAt it.entries p).userKey = true :=
                hpb.2.2 r hrq (by show r < it.entries.length; omega)
              have hle1 : bytesLe (entAt it.entries p).userKey
                  (entAt it.entries r).userKey = true := by
                simpa [bytesLe] using hnlt
              have hukr : (entAt it.entries r).userKey
                  = (entAt it.entries p).userKey :=
                bytesLe_antisymm (sorted_uk_le hs h2 hp) hle1
              rcases Nat.lt_trichotomy r t0 with hlt | heq | hlt
              · exact htop0.2.2 r hlt (hukr.trans huk0.symm) hr.1.2.1
              · rw [heq] at hr
                exact VType.noConfusion (hvt'.symm.trans hr.2)
              · exact hr.1.2.2 t0 hlt (huk0.trans hukr.symm)
                  (hrun0 t0 (le_refl t0) ht0p).2
    · -- the group under the cursor is entirely invisible: skip it
      rw [@fvfck_loop_break
        { it with saved_user_key := (entAt it.entries p).userKey,
                  pos := some p }
        VType.deletion (it.entries.length + 1) p rfl hp
        (fun hc => hvisp hc.1) (by omega)] at hv ⊢
      rw [show (decide (VType.deletion = VType.value)) = false from rfl] at hv ⊢
      dsimp only at hv ⊢
      rw [if_neg (show ¬(true = false) by decide)] at hv ⊢
      obtain ⟨R, heqF, hpb⟩ := fubs_spec (it.entries.length + 1)
        { it with saved_user_key := (entAt it.entries p).userKey,
                  pos := some p, valid := false }
        p rfl hp (by omega)
        (fun i h1 h2 => hgele i h1 h2)
      rw [heqF] at hv ⊢
      dsimp only at hv ⊢
      rw [if_neg (show ¬(false = true) by decide)] at hv ⊢
      cases hR : R with
      | none =>
        rw [hR] at hv
        rw [prev_internal_none rfl] at hv
        simp at hv
      | some q' =>
        rw [hR] at hv
        rw [hR] at hpb
        have hq' : q' < it.entries.length := hpb.1
        obtain ⟨t, R', heq2, hA, hB, hC, hD, hE, hF⟩ := ih
          { it with pos := some q', valid := false,
                    saved_user_key := (entAt it.entries p).userKey }
          q' hs rfl hq' hv
        refine ⟨t, R', heq2, hA, hB, hC,
          bytesLe_trans hD (bytesLe_of_lt hpb.2.1), hE, ?_⟩
        intro r h1 h2
        rcases le_or_lt r q' with hrq | hrq
        · exact hF r h1 hrq
        · intro hr
          have hnlt : ¬ bytesLt (entAt it.entries r).userKey
              (entAt it.entries p).userKey = true :=
            hpb.2.2 r hrq (by show r < it.entries.length; omega)
          have hle1 : bytesLe (entAt it.entries p).userKey
              (entAt it.entries r).userKey = true := by
            simpa [bytesLe] using hnlt
          have hukr : (entAt it.entries r).userKey
              = (entAt it.entries p).userKey :=
            bytesLe_antisymm (sorted_uk_le hs h2 hp) hle1
          have hseq : (entAt it.entries p).seq ≤ (entAt it.entries r).seq := by
            rcases Nat.lt_or_ge r p with hrp | hrp
            · exact Nat.le_of_lt (sorted_seq_lt hs hrp hp hukr)
            · have hre : r = p := by omega
              rw [hre]
          exact hvisp (le_trans hseq hr.1.2.1)

/-- Completeness of the backward walk when no prefix extractor is set: if
`tgt` is an emittable index whose key is at-or-under the cursor's key and
at-or-above the lower bound, and no index in `(tgt, p]` is emittable, then
`prev_internal` ends valid and emits exactly the record at `tgt`. -/
theorem prev_internal_exact (fuel : Nat) :
    ∀ (it : RegionCacheIterator) (p tgt : Nat),
    SortedEntries it.entries →
    it.pos = some p → p < it.entries.length →
    it.pfx = none →
    p + 2 ≤ fuel →
    tgt ≤ p →
    emitIdx it.entries it.sequence_number tgt →
    bytesLe it.lower_bound (entAt it.entries tgt).userKey = true →
    (∀ r, tgt < r → r ≤ p → ¬ emitIdx it.entries it.sequence_number r) →
    ∃ R, prev_internal it fuel =
        { it with saved_user_key := (entAt it.entries tgt).userKey,
                  saved_value := some (entAt it.entries tgt).val,
                  valid := true, pos := R } := by
  induction fuel with
  | zero =>
    intro it p tgt _ _ _ _ hfuel
    omega
  | succ fuel ih =>
    intro it p tgt hs hpos hp hpfx hfuel htp hemit hlowt hmax
    rw [prev_internal, hpos]
    dsimp only
    rw [if_pos hp]
    have hlowp : bytesLe it.lower_bound (entAt it.entries p).userKey = true :=
      bytesLe_trans hlowt (sorted_uk_le hs htp hp)
    rw [if_neg (show ¬ bytesLt (entAt it.entries p).userKey it.lower_bound
      = true from by simp [bytesNot_lt_of_le hlowp])]
    rw [if_neg (show ¬ pfxMismatch it.pfx (entAt it.entries p).userKey = true
      from by rw [hpfx]; simp [pfxMismatch])]
    rw [find_value_for_current_key]
    by_cases hvisp : (entAt it.entries p).seq ≤ it.sequence_number
    · obtain ⟨t0, ht0p, huk0, htop0, hrun0, hbelow0⟩ :=
        groupTop_exists hs hp hvisp
      rw [@fvfck_loop_run (it.entries.length + 1)
        { it with saved_user_key := (entAt it.entries p).userKey,
                  pos := some p }
        VType.deletion p t0 rfl hp (by omega) ht0p
        (fun j h1 h2 => hrun0 j h1 h2) hbelow0]
      by_cases hukeq : (entAt it.entries tgt).userKey
          = (entAt it.entries p).userKey
      · -- the target is the newest visible record of the cursor's own group
        have ht0tgt : t0 = tgt :=
          emitIdx_unique htop0 hemit.1 (huk0.trans hukeq.symm)
        have hvt : (entAt it.entries t0).vType = .value := by
          rw [ht0tgt]; exact hemit.2
        rcases Nat.eq_zero_or_pos t0 with ht00 | ht00
        · rw [ht00]
          rw [show (if (0 : Nat) = 0 then (none : Option Nat) else some (0 - 1))
            = none from if_pos rfl]
          rw [show (decide (0 < 0)) = false from by decide]
          dsimp only
          rw [if_pos (show (false : Bool) = false from rfl)]
          refine ⟨none, ?_⟩
          have htgteq : tgt = 0 := by omega
          rw [ht00] at hvt huk0
          rw [htgteq, hvt, huk0]
          rfl
        · rw [show (if t0 = 0 then (none : Option Nat) else some (t0 - 1))
              = some (t0 - 1) from if_neg (by omega)]
          rw [show (decide (0 < t0)) = true from decide_eq_true ht00]
          dsimp only
          rw [if_neg (show ¬(true = false) by decide)]
          obtain ⟨R, heqF, hpb⟩ := fubs_spec (it.entries.length + 1)
            { it with saved_user_key := (entAt it.entries p).userKey,
                      pos := some (t0 - 1),
                      saved_value :=
                        match (entAt it.entries t0).vType with
                        | .value => some (entAt it.entries t0).val
                        | .deletion => none,
                      valid := decide ((entAt it.entries t0).vType = .value) }
            (t0 - 1) rfl (by show t0 - 1 < it.entries.length; omega)
            (by show t0 - 1 + 2 ≤ it.entries.length + 1; omega)
            (by
              intro i hi1 hi2
              show bytesLe (entAt it.entries p).userKey
                (entAt it.entries i).userKey = true
              rcases le_or_lt i p with hip | hip
              · exact bytesLe_iff.mpr (Or.inr ((hrun0 i (by omega) hip).1).symm)
              · exact sorted_uk_le hs (Nat.le_of_lt hip) hi2)
          rw [heqF]
          dsimp only
          rw [show (decide ((entAt it.entries t0).vType = VType.value)) = true
            from decide_eq_true hvt]
          rw [if_pos (show (true : Bool) = true from rfl)]
          refine ⟨R, ?_⟩
          rw [← ht0tgt]
          rw [hvt, huk0]
      · -- the target's key is strictly below the cursor's group
        have hlt : bytesLt (entAt it.entries tgt).userKey
            (entAt it.entries p).userKey = true := by
          rcases bytesLe_iff.mp (sorted_uk_le hs htp hp) with h | h
          · exact h
          · exact absurd h hukeq
        have htgt0 : tgt < t0 := by
          by_contra hc
          push_neg at hc
          have h1 : bytesLe (entAt it.entries t0).userKey
              (entAt it.entries tgt).userKey = true :=
            sorted_uk_le hs hc hemit.1.1
          rw [huk0] at h1
          have h2 := bytesLt_of_lt_of_le hlt h1
          rw [bytesLt_irrefl] at h2
          exact Bool.noConfusion h2
        have hvt' : (entAt it.entries t0).vType = .deletion := by
          cases hx : (entAt it.entries t0).vType
          · rfl
          · exact absurd ⟨htop0, hx⟩ (hmax t0 htgt0 ht0p)
        have ht00 : 0 < t0 := by omega
        rw [show (if t0 = 0 then (none : Option Nat) else some (t0 - 1))
            = some (t0 - 1) from if_neg (by omega)]
        rw [show (decide (0 < t0)) = true from decide_eq_true ht00]
        dsimp only
        rw [if_neg (show ¬(true = false) by decide)]
        obtain ⟨R, heqF, hpb⟩ := fubs_spec (it.entries.length + 1)
          { it with saved_user_key := (entAt it.entries p).userKey,
                    pos := some (t0 - 1),
                    saved_value :=
                      match (entAt it.entries t0).vType with
                      | .value => some (entAt it.entries t0).val
                      | .deletion => none,
                    valid := decide ((entAt it.entries t0).vType = .value) }
          (t0 - 1) rfl (by show t0 - 1 < it.entries.length; omega)
          (by show t0 - 1 + 2 ≤ it.entries.length + 1; omega)
          (by
            intro i hi1 hi2
            show bytesLe (entAt it.entries p).userKey
              (entAt it.entries i).userKey = true
            rcases le_or_lt i p with hip | hip
            · exact bytesLe_iff.mpr (Or.inr ((hrun0 i (by omega) hip).1).symm)
            · exact sorted_uk_le hs (Nat.le_of_lt hip) hi2)
        rw [heqF]
        dsimp only
        rw [show (decide ((entAt it.entries t0).vType = VType.value)) = false
          from by simp [hvt']]
        rw [if_neg (show ¬(false = true) by decide)]
        cases hR : R with
        | none =>
          rw [hR] at hpb
          exact absurd hlt (hpb tgt hemit.1.1)
        | some q' =>
          rw [hR] at hpb
          have hq' : q' < it.entries.length := hpb.1
          have htq' : tgt ≤ q' := by
            by_contra hc
            push_neg at hc
            exact hpb.2.2 tgt hc hemit.1.1 hlt
          have hq'p : q' < p := by
            by_contra hc
            push_neg at hc
            have h1 := sorted_uk_le hs hc hq'
            have h2 := bytesLt_of_lt_of_le hpb.2.1 h1
            rw [bytesLt_irrefl] at h2
            exact Bool.noConfusion h2
          obtain ⟨R', heq⟩ := ih
            { it with pos := some q', valid := false,
                      saved_user_key := (entAt it.entries p).userKey,
                      saved_value :=
                        match (entAt it.entries t0).vType with
                        | .value => some (entAt it.entries t0).val
                        | .deletion => none }
            q' tgt hs rfl hq' hpfx (by omega) htq' hemit hlowt
            (fun r h1 h2 => hmax r h1 (by omega))
          exact ⟨R', heq⟩
    · -- the cursor's group is entirely invisible: the target is strictly below
      have hukne : ¬ (entAt it.entries tgt).userKey
          = (entAt it.entries p).userKey := by
        intro he
        have hseq : (entAt it.entries p).seq ≤ (entAt it.entries tgt).seq := by
          rcases Nat.lt_or_ge tgt p with h | h
          · exact Nat.le_of_lt (sorted_seq_lt hs h hp he)
          · have hte : tgt = p := by omega
            rw [hte]
        exact hvisp (le_trans hseq hemit.1.2.1)
      have hlt : bytesLt (entAt it.entries tgt).userKey
          (entAt it.entries p).userKey = true := by
        rcases bytesLe_iff.mp (sorted_uk_le hs htp hp) with h | h
        · exact h
        · exact absurd h hukne
      rw [@fvfck_loop_break
        { it with saved_user_key := (entAt it.entries p).userKey,
                  pos := some p }
        VType.deletion (it.entries.length + 1) p rfl hp
        (fun hc => hvisp hc.1) (by omega)]
      rw [show (decide (VType.deletion = VType.value)) = false from rfl]
      dsimp only
      rw [if_neg (show ¬(true = false) by decide)]
      obtain ⟨R, heqF, hpb⟩ := fubs_spec (it.entries.length + 1)
        { it with saved_user_key := (entAt it.entries p).userKey,
                  pos := some p, valid := false }
        p rfl hp (by omega)
        (fun i h1 h2 => sorted_uk_le hs (Nat.le_of_lt h1) h2)
      rw [heqF]
      dsimp only
      rw [if_neg (show ¬(false = true) by decide)]
      cases hR : R with
      | none =>
        rw [hR] at hpb
        exact absurd hlt (hpb tgt hemit.1.1)
      | some q' =>
        rw [hR] at hpb
        have hq' : q' < it.entries.length := hpb.1
        have htq' : tgt ≤ q' := by
          by_contra hc
          push_neg at hc
          exact hpb.2.2 tgt hc hemit.1.1 hlt
        have hq'p : q' < p := by
          by_contra hc
          push_neg at hc
          have h1 := sorted_uk_le hs hc hq'
          have h2 := bytesLt_of_lt_of_le hpb.2.1 h1
          rw [bytesLt_irrefl] at h2
          exact Bool.noConfusion h2
        obtain ⟨R', heq⟩ := ih
          { it with pos := some q', valid := false,
                    saved_user_key := (entAt it.entries p).userKey }
          q' tgt hs rfl hq' hpfx (by omega) htq' hemit hlowt
          (fun r h1 h2 => hmax r h1 (by omega))
        exact ⟨R', heq⟩

/-- A record at-or-after `encode_seek_key (k, s)` has user key `≥ k`. -/
theorem seekGe_le {k : Bytes} {s : Nat} {e : Entry}
    (h : seekGe k s e = true) : bytesLe k e.userKey = true := by
  simp only [seekGe, Bool.or_eq_true, Bool.and_eq_true, decide_eq_true_eq] at h
  rcases h with h | ⟨h1, _⟩
  · exact bytesLe_of_lt h
  · exact bytesLe_iff.mpr (Or.inr h1.symm)

/-- A record at-or-before `encode_seek_for_prev_key (k, s)` has user key
`≤ k`. -/
theorem sfpLe_le {k : Bytes} {s : Nat} {e : Entry}
    (h : sfpLe k s e = true) : bytesLe e.userKey k = true := by
  simp only [sfpLe, Bool.or_eq_true, Bool.and_eq_true, decide_eq_true_eq] at h
  rcases h with h | ⟨h1, _⟩
  · exact bytesLe_of_lt h
  · exact bytesLe_iff.mpr (Or.inr h1)

/-- Every visible record before the landing point of a seek at the snapshot
sequence has a strictly smaller user key than the landing record. -/
theorem slSeek_before_lt {L : List Entry} {k : Bytes} {s : Nat} {i : Nat}
    (h : slSeek L k s = some i) :
    ∀ j < i, (entAt L j).seq ≤ s →
      bytesLt (entAt L j).userKey (entAt L i).userKey = true := by
  intro j hj hvis
  have hspec := findFirstIdx_some h
  have hnotj := hspec.2.2 j hj
  have hk_le : bytesLe k (entAt L i).userKey = true := seekGe_le hspec.2.1
  rcases bytesLt_trichotomy (entAt L j).userKey k with hc | hc | hc
  · exact bytesLt_of_lt_of_le hc hk_le
  · exfalso
    have hcl : clampSeq (entAt L j).seq ≤ clampSeq s :=
      min_le_min hvis (le_refl _)
    have htrue : seekGe k s (entAt L j) = true := by
      simp [seekGe, hc, hcl]
    rw [hnotj] at htrue
    exact Bool.noConfusion htrue
  · exfalso
    have htrue : seekGe k s (entAt L j) = true := by
      simp [seekGe, hc]
    rw [hnotj] at htrue
    exact Bool.noConfusion htrue

/-- `seek_internal (k, sequence_number)`: a valid result rests on the first
emittable record with user key `≥ k`, below the upper bound. -/
theorem seek_internal_sound {it : RegionCacheIterator} {k : Bytes}
    (hs : SortedEntries it.entries)
    (hv : (seek_internal it k it.sequence_number).valid = true) :
    ∃ q, seek_internal it k it.sequence_number =
        { it with pos := some q, valid := true,
                  saved_user_key := (entAt it.entries q).userKey } ∧
      q < it.entries.length ∧
      emitIdx it.entries it.sequence_number q ∧
      bytesLe k (entAt it.entries q).userKey = true ∧
      bytesLt (entAt it.entries q).userKey it.upper_bound = true := by
  cases hsl : slSeek it.entries k it.sequence_number with
  | none =>
    rw [seek_internal] at hv
    dsimp only at hv
    rw [hsl] at hv
    dsimp only at hv
    simp at hv
  | some i =>
    rw [seek_internal] at hv ⊢
    dsimp only at hv ⊢
    rw [hsl] at hv ⊢
    dsimp only at hv ⊢
    have hspec := findFirstIdx_some hsl
    obtain ⟨q, heq, hq1, hq2, hq3, hq4, _, _⟩ :=
      fnvk_sound (it.entries.length + 1) { it with pos := some i } false i
        hs rfl hspec.1
        (by
          intro j hj hjv
          exact Or.inl (slSeek_before_lt hsl j hj hjv))
        (fun hsk => Bool.noConfusion hsk) hv
    refine ⟨q, heq, hq2, hq3, ?_, hq4⟩
    exact bytesLe_trans (seekGe_le hspec.2.1) (sorted_uk_le hs hq1 hq2)

/-- `seek_for_prev_internal (k, s)`: a valid result emits the newest visible
`Value` of some user key in `[lower_bound, k]`, resting below it. -/
theorem sfp_internal_sound {it : RegionCacheIterator} {k : Bytes} {s : Nat}
    (hs : SortedEntries it.entries)
    (hv : (seek_for_prev_internal it k s).valid = true) :
    ∃ t R, seek_for_prev_internal it k s =
        { it with saved_user_key := (entAt it.entries t).userKey,
                  saved_value := some (entAt it.entries t).val,
                  valid := true, pos := R } ∧
      t < it.entries.length ∧
      emitIdx it.entries it.sequence_number t ∧
      bytesLe it.lower_bound (entAt it.entries t).userKey = true ∧
      bytesLe (entAt it.entries t).userKey k = true ∧
      posBelowKey it.entries (entAt it.entries t).userKey R := by
  cases hsl : slSeekForPrev it.entries k s with
  | none =>
    rw [seek_for_prev_internal] at hv
    rw [hsl] at hv
    rw [prev_internal_none rfl] at hv
    simp at hv
  | some p =>
    rw [seek_for_prev_internal] at hv ⊢
    rw [hsl] at hv ⊢
    have hspec := findLastIdx_some hsl
    obtain ⟨t, R, heq, h1, h2, h3, h4, h5, _⟩ :=
      prev_internal_sound (it.entries.length + 2) { it with pos := some p }
        p hs rfl hspec.1 hv
    exact ⟨t, R, heq, h1, h2, h3,
      bytesLe_trans h4 (sfpLe_le hspec.2.1), h5⟩

theorem rtf_step_none {it : RegionCacheIterator} {fuel : Nat}
    (hpos : it.pos = none) : rtf_step it fuel = it := by
  cases fuel <;> simp [rtf_step, hpos]

/-- The forward walk of `reverse_to_forward` stops as soon as the record
under the cursor is at-or-above the saved user key. -/
theorem rtf_step_stop {it : RegionCacheIterator} {p : Nat} {fuel : Nat}
    (hpos : it.pos = some p) (hp : p < it.entries.length)
    (hge : ¬ bytesLt (entAt it.entries p).userKey it.saved_user_key = true) :
    rtf_step it fuel = it := by
  cases fuel with
  | zero => rfl
  | succ fuel =>
    rw [rtf_step, hpos]
    dsimp only
    rw [if_pos hp, if_pos hge]

/-- One step of the forward walk when everything above the current position
is at-or-above the saved key. -/
theorem rtf_step_adv {it : RegionCacheIterator} {p : Nat} {fuel : Nat}
    (hpos : it.pos = some p) (hp : p < it.entries.length)
    (hlt : bytesLt (entAt it.entries p).userKey it.saved_user_key = true)
    (habove : ∀ i, p < i → i < it.entries.length →
      ¬ bytesLt (entAt it.entries i).userKey it.saved_user_key = true)
    (hfuel : 0 < fuel) :
    rtf_step it fuel = { it with pos := posNext it.entries (some p) } := by
  cases fuel with
  | zero => omega
  | succ fuel =>
    rw [rtf_step, hpos]
    dsimp only
    rw [if_pos hp]
    rw [if_neg (not_not_intro hlt)]
    by_cases hnx : p + 1 < it.entries.length
    · rw [show posNext it.entries (some p) = some (p + 1) from by
        simp [posNext, hnx]]
      exact rtf_step_stop rfl hnx (habove (p + 1) (by omega) hnx)
    · rw [show posNext it.entries (some p) = none from by
        simp [posNext, hnx]]
      exact rtf_step_none rfl

/-- `reverse_to_forward` repositions the underlying iterator on the first
record whose user key is at-or-above the saved key (which is present in the
store), leaving the saved key untouched. -/
theorem reverse_to_forward_spec {it : RegionCacheIterator} {q : Nat}
    (hs : SortedEntries it.entries)
    (hq : q < it.entries.length)
    (hsk : it.saved_user_key = (entAt it.entries q).userKey)
    (hpb : posBelowKey it.entries it.saved_user_key it.pos) :
    ∃ g, reverse_to_forward it =
        { it with direction := .Forward, pos := some g } ∧
      g < it.entries.length ∧
      (entAt it.entries g).userKey = it.saved_user_key ∧
      ∀ j < g, bytesLt (entAt it.entries j).userKey it.saved_user_key
        = true := by
  rw [reverse_to_forward]
  by_cases hre : it.usePfx = true ∨ it.pos = none
  · rw [if_pos hre]
    dsimp only
    have hclq : clampSeq (entAt it.entries q).seq
        ≤ clampSeq MAX_SEQUENCE_NUMBER := by
      simp only [clampSeq, Nat.min_self]
      exact Nat.min_le_right _ _
    have hex : seekGe it.saved_user_key MAX_SEQUENCE_NUMBER
        (entAt it.entries q) = true := by
      simp [seekGe, hsk.symm, hclq]
    obtain ⟨g, hg, hgle⟩ := findFirstIdx_isSome hq hex
    have hg' : slSeek it.entries it.saved_user_key MAX_SEQUENCE_NUMBER
        = some g := hg
    rw [hg']
    have hspec := findFirstIdx_some hg
    have hukg : (entAt it.entries g).userKey = it.saved_user_key := by
      have h1 : bytesLe it.saved_user_key (entAt it.entries g).userKey = true :=
        seekGe_le hspec.2.1
      have h2 : bytesLe (entAt it.entries g).userKey
          (entAt it.entries q).userKey = true := sorted_uk_le hs hgle hq
      rw [← hsk] at h2
      exact bytesLe_antisymm h2 h1
    have hbefore : ∀ j < g,
        bytesLt (entAt it.entries j).userKey it.saved_user_key = true := by
      intro j hj
      have hnotj := hspec.2.2 j hj
      rcases bytesLt_trichotomy (entAt it.entries j).userKey
          it.saved_user_key with hc | hc | hc
      · exact hc
      · exfalso
        have hclj : clampSeq (entAt it.entries j).seq
            ≤ clampSeq MAX_SEQUENCE_NUMBER := by
          simp only [clampSeq, Nat.min_self]
          exact Nat.min_le_right _ _
        have htrue : seekGe it.saved_user_key MAX_SEQUENCE_NUMBER
            (entAt it.entries j) = true := by
          simp [seekGe, hc, hclj]
        rw [hnotj] at htrue
        exact Bool.noConfusion htrue
      · exfalso
        have htrue : seekGe it.saved_user_key MAX_SEQUENCE_NUMBER
            (entAt it.entries j) = true := by
          simp [seekGe, hc]
        rw [hnotj] at htrue
        exact Bool.noConfusion htrue
    rw [@rtf_step_stop { it with pos := some g, direction := .Forward }
      g (it.entries.length + 1) rfl hspec.1
      (by
        show ¬ bytesLt (entAt it.entries g).userKey it.saved_user_key = true
        rw [hukg]
        simp [bytesLt_irrefl])]
    exact ⟨g, rfl, hspec.1, hukg, hbefore⟩
  · rw [if_neg hre]
    dsimp only
    push_neg at hre
    cases hP : it.pos with
    | none => exact absurd hP hre.2
    | some pb =>
      rw [hP] at hpb
      have hbq : pb < q := by
        by_contra hc
        push_neg at hc
        have h1 := sorted_uk_le hs hc hpb.1
        rw [← hsk] at h1
        have h2 := bytesLt_of_lt_of_le hpb.2.1 h1
        rw [bytesLt_irrefl] at h2
        exact Bool.noConfusion h2
      have hnx : pb + 1 < it.entries.length := by omega
      rw [@rtf_step_adv { it with pos := some pb, direction := .Forward }
        pb (it.entries.length + 1) rfl hpb.1 hpb.2.1 hpb.2.2 (by omega)]
      rw [show posNext it.entries (some pb) = some (pb + 1) from by
        simp [posNext, hnx]]
      refine ⟨pb + 1, rfl, hnx, ?_, ?_⟩
      · have h1 : bytesLe it.saved_user_key
            (entAt it.entries (pb + 1)).userKey = true := by
          have := hpb.2.2 (pb + 1) (by omega) hnx
          simpa [bytesLe] using this
        have h2 : bytesLe (entAt it.entries (pb + 1)).userKey
            (entAt it.entries q).userKey = true :=
          sorted_uk_le hs (by omega) hq
        rw [← hsk] at h2
        exact bytesLe_antisymm h2 h1
      · intro j hj
        exact bytesLt_of_le_of_lt
          (sorted_uk_le hs (by omega) hpb.1) hpb.2.1

/-- `next` from an emitted Forward state: a valid result rests on the first
emittable record with a strictly larger user key. -/
theorem next_fwd_sound {it : RegionCacheIterator} {q : Nat}
    (hs : SortedEntries it.entries) (hq : q < it.entries.length)
    (hdir : it.direction = .Forward) (hpos : it.pos = some q)
    (hsk : it.saved_user_key = (entAt it.entries q).userKey)
    (hv : it.next.valid = true) :
    ∃ q', it.next =
        { it with pos := some q', valid := true,
                  saved_user_key := (entAt it.entries q').userKey } ∧
      q < q' ∧ q' < it.entries.length ∧
      emitIdx it.entries it.sequence_number q' ∧
      bytesLt it.saved_user_key (entAt it.entries q').userKey = true ∧
      bytesLt (entAt it.entries q').userKey it.upper_bound = true ∧
      ∀ r, r < q' → ¬ (emitIdx it.entries it.sequence_number r ∧
        bytesLt it.saved_user_key (entAt it.entries r).userKey = true) := by
  rw [RegionCacheIterator.next] at hv ⊢
  rw [if_neg (show ¬ it.direction = Direction.Backward from by
    rw [hdir]; exact fun h => Direction.noConfusion h)] at hv ⊢
  rw [hpos] at hv ⊢
  dsimp only at hv ⊢
  by_cases hnx : q + 1 < it.entries.length
  swap
  · rw [show posNext it.entries (some q) = none from by
      simp [posNext, hnx]] at hv
    simp only [Option.isSome_none] at hv
    rw [if_neg (show ¬(false = true) by decide)] at hv
    simp at hv
  · rw [show posNext it.entries (some q) = some (q + 1) from by
      simp [posNext, hnx]] at hv ⊢
    simp only [Option.isSome_some] at hv ⊢
    rw [if_pos trivial] at hv ⊢
    obtain ⟨q', heq, h1, h2, h3, h4, h5, h6⟩ :=
      fnvk_sound (it.entries.length + 1)
        { it with pos := some (q + 1), valid := true } true (q + 1)
        hs rfl hnx
        (by
          intro j hj hjv
          show bytesLt (entAt it.entries j).userKey
              (entAt it.entries (q + 1)).userKey = true ∨
            (true = true ∧ (entAt it.entries j).userKey = it.saved_user_key)
          rcases bytesLe_iff.mp (sorted_uk_le hs
              (show j ≤ q by omega) hq) with hc | hc
          · exact Or.inl (bytesLt_of_lt_of_le hc
              (sorted_uk_le hs (Nat.le_succ q) hnx))
          · exact Or.inr ⟨rfl, hc.trans hsk.symm⟩)
        (fun _ => by
          show bytesLe it.saved_user_key
            (entAt it.entries (q + 1)).userKey = true
          rw [hsk]
          exact sorted_uk_le hs (Nat.le_succ q) hnx) hv
    have hgt : bytesLt it.saved_user_key
        (entAt it.entries q').userKey = true := by
      rcases bytesLe_iff.mp (sorted_uk_le hs
          (show q ≤ q' by omega) h2) with hc | hc
      · rw [hsk]; exact hc
      · exact absurd (hc.symm.trans hsk.symm) (h5 rfl)
    refine ⟨q', heq, by omega, h2, h3, hgt, h4, ?_⟩
    intro r hr ⟨hre, hrgt⟩
    rcases le_or_lt r q with hrq | hrq
    · have hle := sorted_uk_le hs hrq hq
      rw [← hsk] at hle
      have h2' := bytesLt_of_lt_of_le hrgt hle
      rw [bytesLt_irrefl] at h2'
      exact Bool.noConfusion h2'
    · exact h6 r (by omega) hr ⟨hre,
        fun _ he => (bytesLt_ne hrgt) he.symm⟩

/-- `next` from an emitted Backward state: reverse to forward, step once, and
land on the first emittable record with user key strictly above the saved
key. -/
theorem next_bwd_sound {it : RegionCacheIterator} {q : Nat}
    (hs : SortedEntries it.entries) (hq : q < it.entries.length)
    (hdir : it.direction = .Backward)
    (hsk : it.saved_user_key = (entAt it.entries q).userKey)
    (hpb : posBelowKey it.entries it.saved_user_key it.pos)
    (hv : it.next.valid = true) :
    ∃ q', it.next =
        { it with direction := .Forward, pos := some q', valid := true,
                  saved_user_key := (entAt it.entries q').userKey } ∧
      q' < it.entries.length ∧
      emitIdx it.entries it.sequence_number q' ∧
      bytesLt it.saved_user_key (entAt it.entries q').userKey = true ∧
      bytesLt (entAt it.entries q').userKey it.upper_bound = true ∧
      ∀ r, r < q' → ¬ (emitIdx it.entries it.sequence_number r ∧
        bytesLt it.saved_user_key (entAt it.entries r).userKey = true) := by
  rw [RegionCacheIterator.next] at hv ⊢
  rw [if_pos hdir] at hv ⊢
  obtain ⟨g, hgeq, hglen, hguk, hgbefore⟩ :=
    reverse_to_forward_spec hs hq hsk hpb
  rw [hgeq] at hv ⊢
  dsimp only at hv ⊢
  have hsavle : bytesLe it.saved_user_key
      (entAt it.entries g).userKey = true :=
    bytesLe_iff.mpr (Or.inr hguk.symm)
  by_cases hnx : g + 1 < it.entries.length
  swap
  · rw [show posNext it.entries (some g) = none from by
      simp [posNext, hnx]] at hv
    simp only [Option.isSome_none] at hv
    rw [if_neg (show ¬(false = true) by decide)] at hv
    simp at hv
  · rw [show posNext it.entries (some g) = some (g + 1) from by
      simp [posNext, hnx]] at hv ⊢
    simp only [Option.isSome_some] at hv ⊢
    rw [if_pos trivial] at hv ⊢
    have hsavle1 : bytesLe it.saved_user_key
        (entAt it.entries (g + 1)).userKey = true :=
      bytesLe_trans hsavle (sorted_uk_le hs (Nat.le_succ g) hnx)
    obtain ⟨q', heq, h1, h2, h3, h4, h5, h6⟩ :=
      fnvk_sound (it.entries.length + 1)
        { it with pos := some (g + 1), valid := true,
                  direction := .Forward } true (g + 1)
        hs rfl hnx
        (by
          intro j hj hjv
          show bytesLt (entAt it.entries j).userKey
              (entAt it.entries (g + 1)).userKey = true ∨
            (true = true ∧ (entAt it.entries j).userKey = it.saved_user_key)
          rcases Nat.lt_or_ge j g with hc | hc
          · exact Or.inl (bytesLt_of_lt_of_le (hgbefore j hc) hsavle1)
          · have hjg : j = g := by omega
            exact Or.inr ⟨rfl, by rw [hjg]; exact hguk⟩)
        (fun _ => hsavle1) hv
    have hgt : bytesLt it.saved_user_key
        (entAt it.entries q').userKey = true := by
      rcases bytesLe_iff.mp (bytesLe_trans hsavle
          (sorted_uk_le hs (show g ≤ q' by omega) h2)) with hc | hc
      · exact hc
      · exact absurd hc.symm (h5 rfl)
    refine ⟨q', heq, h2, h3, hgt, h4, ?_⟩
    intro r hr ⟨hre, hrgt⟩
    rcases Nat.lt_or_ge r (g + 1) with hrq | hrq
    · have hle : bytesLe (entAt it.entries r).userKey
          it.saved_user_key = true := by
        rcases Nat.lt_or_ge r g with hc | hc
        · exact bytesLe_of_lt (hgbefore r hc)
        · have hrg : r = g := by omega
          exact bytesLe_iff.mpr (Or.inr (by rw [hrg]; exact hguk))
      have h2' := bytesLt_of_lt_of_le hrgt hle
      rw [bytesLt_irrefl] at h2'
      exact Bool.noConfusion h2'
    · exact h6 r hrq hr ⟨hre,
        fun _ he => (bytesLt_ne hrgt) he.symm⟩

/-- `prev` from an emitted Forward state: reverse to backward (walking the
underlying iterator below the saved key), then emit the last emittable record
with a strictly smaller user key. -/
theorem prev_fwd_sound {it : RegionCacheIterator} {q : Nat}
    (hs : SortedEntries it.entries) (hq : q < it.entries.length)
    (hdir : it.direction = .Forward) (hpos : it.pos = some q)
    (hsk : it.saved_user_key = (entAt it.entries q).userKey)
    (hv : it.prev.valid = true) :
    ∃ t R, it.prev =
        { it with direction := .Backward,
                  saved_user_key := (entAt it.entries t).userKey,
                  saved_value := some (entAt it.entries t).val,
                  valid := true, pos := R } ∧
      t < it.entries.length ∧
      emitIdx it.entries it.sequence_number t ∧
      bytesLe it.lower_bound (entAt it.entries t).userKey = true ∧
      bytesLt (entAt it.entries t).userKey it.saved_user_key = true ∧
      posBelowKey it.entries (entAt it.entries t).userKey R ∧
      ∀ r, t < r → ¬ (emitIdx it.entries it.sequence_number r ∧
        bytesLt (entAt it.entries r).userKey it.saved_user_key = true) := by
  rw [RegionCacheIterator.prev] at hv ⊢
  rw [if_pos hdir] at hv ⊢
  rw [reverse_to_backward] at hv ⊢
  dsimp only at hv ⊢
  obtain ⟨R0, hR0eq, hpb0⟩ := fubs_spec (it.entries.length + 1)
    { it with direction := .Backward } q hpos hq (by omega)
    (fun i h1 h2 => by
      show bytesLe it.saved_user_key (entAt it.entries i).userKey = true
      rw [hsk]
      exact sorted_uk_le hs (Nat.le_of_lt h1) h2)
  rw [hR0eq] at hv ⊢
  cases hR0 : R0 with
  | none =>
    rw [hR0] at hv
    rw [prev_internal_none rfl] at hv
    simp at hv
  | some p =>
    rw [hR0] at hv
    rw [hR0] at hpb0
    obtain ⟨t, R, heq, h1, h2, h3, h4, h5, h6⟩ :=
      prev_internal_sound (it.entries.length + 2)
        { it with direction := .Backward, pos := some p } p hs rfl hpb0.1 hv
    have hlt : bytesLt (entAt it.entries t).userKey it.saved_user_key
        = true := bytesLt_of_le_of_lt h4 hpb0.2.1
    refine ⟨t, R, heq, h1, h2, h3, hlt, h5, ?_⟩
    intro r hr ⟨hre, hrlt⟩
    rcases le_or_lt r p with hrp | hrp
    · exact h6 r hr hrp hre
    · exact hpb0.2.2 r hrp hre.1.1 hrlt

/-- `prev` from an emitted Backward state: emit the last emittable record
with a strictly smaller user key. -/
theorem prev_bwd_sound {it : RegionCacheIterator} {q : Nat}
    (hs : SortedEntries it.entries) (hq : q < it.entries.length)
    (hdir : it.direction = .Backward)
    (hsk : it.saved_user_key = (entAt it.entries q).userKey)
    (hpb : posBelowKey it.entries it.saved_user_key it.pos)
    (hv : it.prev.valid = true) :
    ∃ t R, it.prev =
        { it with saved_user_key := (entAt it.entries t).userKey,
                  saved_value := some (entAt it.entries t).val,
                  valid := true, pos := R } ∧
      t < it.entries.length ∧
      emitIdx it.entries it.sequence_number t ∧
      bytesLe it.lower_bound (entAt it.entries t).userKey = true ∧
      bytesLt (entAt it.entries t).userKey it.saved_user_key = true ∧
      posBelowKey it.entries (entAt it.entries t).userKey R ∧
      ∀ r, t < r → ¬ (emitIdx it.entries it.sequence_number r ∧
        bytesLt (entAt it.entries r).userKey it.saved_user_key = true) := by
  rw [RegionCacheIterator.prev] at hv ⊢
  rw [if_neg (show ¬ it.direction = Direction.Forward from by
    rw [hdir]; exact fun h => Direction.noConfusion h)] at hv ⊢
  cases hP : it.pos with
  | none =>
    rw [prev_internal_none hP] at hv
    simp at hv
  | some p =>
    rw [hP] at hpb
    obtain ⟨t, R, heq, h1, h2, h3, h4, h5, h6⟩ :=
      prev_internal_sound (it.entries.length + 2) it p hs hP hpb.1 hv
    have hlt : bytesLt (entAt it.entries t).userKey it.saved_user_key
        = true := bytesLt_of_le_of_lt h4 hpb.2.1
    refine ⟨t, R, heq, h1, h2, h3, hlt, h5, ?_⟩
    intro r hr ⟨hre, hrlt⟩
    rcases le_or_lt r p with hrp | hrp
    · exact h6 r hr hrp hre
    · exact hpb.2.2 r hrp hre.1.1 hrlt

/-- `prev` from an emitted Forward state returns exactly the largest
emittable record below the saved key (no prefix extractor). -/
theorem prev_fwd_exact {it : RegionCacheIterator} {q tgt : Nat}
    (hs : SortedEntries it.entries) (hq : q < it.entries.length)
    (hdir : it.direction = .Forward) (hpos : it.pos = some q)
    (hsk : it.saved_user_key = (entAt it.entries q).userKey)
    (hpfx : it.pfx = none)
    (htgt : emitIdx it.entries it.sequence_number tgt)
    (hlt : bytesLt (entAt it.entries tgt).userKey it.saved_user_key = true)
    (hlow : bytesLe it.lower_bound (entAt it.entries tgt).userKey = true)
    (hmax : ∀ r, tgt < r → ¬ (emitIdx it.entries it.sequence_number r ∧
      bytesLt (entAt it.entries r).userKey it.saved_user_key = true)) :
    ∃ R, it.prev =
        { it with direction := .Backward,
                  saved_user_key := (entAt it.entries tgt).userKey,
                  saved_value := some (entAt it.entries tgt).val,
                  valid := true, pos := R } := by
  rw [RegionCacheIterator.prev]
  rw [if_pos hdir]
  rw [reverse_to_backward]
  dsimp only
  obtain ⟨R0, hR0eq, hpb0⟩ := fubs_spec (it.entries.length + 1)
    { it with direction := .Backward } q hpos hq (by omega)
    (fun i h1 h2 => by
      show bytesLe it.saved_user_key (entAt it.entries i).userKey = true
      rw [hsk]
      exact sorted_uk_le hs (Nat.le_of_lt h1) h2)
  rw [hR0eq]
  cases hR0 : R0 with
  | none =>
    rw [hR0] at hpb0
    exact absurd hlt (hpb0 tgt htgt.1.1)
  | some p =>
    rw [hR0] at hpb0
    have hplen : p < it.entries.length := hpb0.1
    have htp : tgt ≤ p := by
      by_contra hc
      push_neg at hc
      exact hpb0.2.2 tgt hc htgt.1.1 hlt
    obtain ⟨R, heq⟩ := prev_internal_exact (it.entries.length + 2)
      { it with direction := .Backward, pos := some p } p tgt hs rfl hpb0.1
      hpfx (by show p + 2 ≤ it.entries.length + 2; omega) htp htgt hlow
      (fun r h1 h2 => by
        intro hre
        exact hmax r h1 ⟨hre,
          bytesLt_of_le_of_lt (sorted_uk_le hs h2 hpb0.1) hpb0.2.1⟩)
    exact ⟨R, heq⟩

/-- `prev` from an emitted Backward state returns exactly the largest
emittable record below the saved key (no prefix extractor). -/
theorem prev_bwd_exact {it : RegionCacheIterator} {tgt : Nat}
    (hs : SortedEntries it.entries)
    (hdir : it.direction = .Backward)
    (hpb : posBelowKey it.entries it.saved_user_key it.pos)
    (hpfx : it.pfx = none)
    (htgt : emitIdx it.entries it.sequence_number tgt)
    (hlt : bytesLt (entAt it.entries tgt).userKey it.saved_user_key = true)
    (hlow : bytesLe it.lower_bound (entAt it.entries tgt).userKey = true)
    (hmax : ∀ r, tgt < r → ¬ (emitIdx it.entries it.sequence_number r ∧
      bytesLt (entAt it.entries r).userKey it.saved_user_key = true)) :
    ∃ R, it.prev =
        { it with saved_user_key := (entAt it.entries tgt).userKey,
                  saved_value := some (entAt it.entries tgt).val,
                  valid := true, pos := R } := by
  rw [RegionCacheIterator.prev]
  rw [if_neg (show ¬ it.direction = Direction.Forward from by
    rw [hdir]; exact fun h => Direction.noConfusion h)]
  cases hP : it.pos with
  | none =>
    rw [hP] at hpb
    exact absurd hlt (hpb tgt htgt.1.1)
  | some p =>
    rw [hP] at hpb
    have hplen : p < it.entries.length := hpb.1
    have htp : tgt ≤ p := by
      by_contra hc
      push_neg at hc
      exact hpb.2.2 tgt hc htgt.1.1 hlt
    obtain ⟨R, heq⟩ := prev_internal_exact (it.entries.length + 2)
      it p tgt hs hP hpb.1 hpfx
      (by show p + 2 ≤ it.entries.length + 2; omega) htp htgt hlow
      (fun r h1 h2 => by
        intro hre
        exact hmax r h1 ⟨hre,
          bytesLt_of_le_of_lt (sorted_uk_le hs h2 hpb.1) hpb.2.1⟩)
    exact ⟨R, heq⟩

/-- `next` from an emitted Backward state returns exactly the smallest
emittable record above the saved key (no prefix extractor). -/
theorem next_bwd_exact {it : RegionCacheIterator} {t q0 : Nat}
    (hs : SortedEntries it.entries) (ht : t < it.entries.length)
    (hdir : it.direction = .Backward)
    (hsk : it.saved_user_key = (entAt it.entries t).userKey)
    (hpb : posBelowKey it.entries it.saved_user_key it.pos)
    (hpfx : it.pfx = none)
    (hq0 : emitIdx it.entries it.sequence_number q0)
    (hgt : bytesLt it.saved_user_key (entAt it.entries q0).userKey = true)
    (hup : bytesLt (entAt it.entries q0).userKey it.upper_bound = true)
    (hmin : ∀ r, t < r → ¬ (emitIdx it.entries it.sequence_number r ∧
      bytesLt (entAt it.entries r).userKey (entAt it.entries q0).userKey
        = true)) :
    it.next = { it with direction := .Forward, pos := some q0,
                        valid := true,
                        saved_user_key := (entAt it.entries q0).userKey }
      := by
  rw [RegionCacheIterator.next]
  rw [if_pos hdir]
  obtain ⟨g, hgeq, hglen, hguk, hgbefore⟩ :=
    reverse_to_forward_spec hs ht hsk hpb
  rw [hgeq]
  dsimp only
  have hgq0 : g < q0 := by
    by_contra hc
    push_neg at hc
    have h1 := sorted_uk_le hs hc hglen
    rw [hguk] at h1
    have h2 := bytesLt_of_lt_of_le hgt h1
    rw [bytesLt_irrefl] at h2
    exact Bool.noConfusion h2
  have hnx : g + 1 < it.entries.length := by
    have := hq0.1.1
    omega
  rw [show posNext it.entries (some g) = some (g + 1) from by
    simp [posNext, hnx]]
  simp only [Option.isSome_some]
  rw [if_pos trivial]
  have hsavle1 : bytesLe it.saved_user_key
      (entAt it.entries (g + 1)).userKey = true :=
    bytesLe_trans (bytesLe_iff.mpr (Or.inr hguk.symm))
      (sorted_uk_le hs (Nat.le_succ g) hnx)
  exact fnvk_emits (it.entries.length + 1)
    { it with pos := some (g + 1), valid := true, direction := .Forward }
    true (g + 1) q0 hs rfl hnx hpfx
    (by show it.entries.length - (g + 1) < it.entries.length + 1; omega)
    (by
      intro j hj hjv
      show bytesLt (entAt it.entries j).userKey
          (entAt it.entries (g + 1)).userKey = true ∨
        (true = true ∧ (entAt it.entries j).userKey = it.saved_user_key)
      rcases Nat.lt_or_ge j g with hc | hc
      · exact Or.inl (bytesLt_of_lt_of_le (hgbefore j hc) hsavle1)
      · have hjg : j = g := by omega
        exact Or.inr ⟨rfl, by rw [hjg]; exact hguk⟩)
    (fun _ => hsavle1)
    (by omega) hq0.1.1 hq0 hup
    (fun _ => fun he => (bytesLt_ne hgt) he.symm)
    (by
      intro r hr1 hr2
      intro ⟨hre, hrne⟩
      have hrge : bytesLe it.saved_user_key
          (entAt it.entries r).userKey = true := by
        rcases Nat.lt_or_ge r (g + 1) with hc | hc
        · have hrg : r = g := by omega
          exact bytesLe_iff.mpr (Or.inr (by rw [hrg]; exact hguk.symm))
        · exact bytesLe_trans (bytesLe_iff.mpr (Or.inr hguk.symm))
            (sorted_uk_le hs (by omega) hre.1.1)
      have hrlt : bytesLt (entAt it.entries r).userKey
          (entAt it.entries q0).userKey = true := by
        rcases bytesLe_iff.mp (sorted_uk_le hs
            (Nat.le_of_lt hr2) hq0.1.1) with hc | hc
        · exact hc
        · exact absurd (emitIdx_unique hre.1 hq0.1 hc) (by omega)
      have htr : t < r := by
        by_contra hc
        push_neg at hc
        have h1 := sorted_uk_le hs hc ht
        rw [← hsk] at h1
        have h2 : bytesLe it.saved_user_key it.saved_user_key = true ∧
            (entAt it.entries r).userKey ≠ it.saved_user_key :=
          ⟨bytesLe_refl _, hrne rfl⟩
        have h3 := bytesLe_antisymm h1 hrge
        exact h2.2 h3
      exact hmin r htr ⟨hre, hrlt⟩)

/-- A valid iterator state as produced by an emitting operation: the saved
user key is the newest visible `Value` record of some index `q`, within the
configured bounds; a Forward iterator rests on `q` (strictly below the upper
bound); a Backward iterator has `q`'s value saved and its underlying
iterator rests just below the emitted key. -/
def GoodValid (it : RegionCacheIterator) : Prop :=
  (it.direction = .Forward ∨ it.direction = .Backward) ∧
  ∃ q, q < it.entries.length ∧
    it.saved_user_key = (entAt it.entries q).userKey ∧
    emitIdx it.entries it.sequence_number q ∧
    bytesLe it.lower_bound (entAt it.entries q).userKey = true ∧
    bytesLe (entAt it.entries q).userKey it.upper_bound = true ∧
    (it.direction = .Forward →
      it.pos = some q ∧
      bytesLt (entAt it.entries q).userKey it.upper_bound = true) ∧
    (it.direction = .Backward →
      it.saved_value = some (entAt it.entries q).val ∧
      posBelowKey it.entries it.saved_user_key it.pos)

/-- `next` from any emitted state lands Forward on an emittable record with
the smallest user key strictly above the saved key. -/
theorem next_sound_of_good {it : RegionCacheIterator}
    (hs : SortedEntries it.entries) (hgood : GoodValid it)
    (hv : it.next.valid = true) :
    ∃ q', it.next =
        { it with direction := .Forward, pos := some q', valid := true,
                  saved_user_key := (entAt it.entries q').userKey } ∧
      q' < it.entries.length ∧
      emitIdx it.entries it.sequence_number q' ∧
      bytesLt it.saved_user_key (entAt it.entries q').userKey = true ∧
      bytesLt (entAt it.entries q').userKey it.upper_bound = true ∧
      ∀ r, r < q' → ¬ (emitIdx it.entries it.sequence_number r ∧
        bytesLt it.saved_user_key (entAt it.entries r).userKey = true) := by
  obtain ⟨hdirs, q, hq, hsk, hemit, hlow, hup, hfwd, hbwd⟩ := hgood
  rcases hdirs with hdF | hdB
  · obtain ⟨hpos, _⟩ := hfwd hdF
    obtain ⟨q', heq, _, h2, h3, h4, h5, h6⟩ :=
      next_fwd_sound hs hq hdF hpos hsk hv
    exact ⟨q', heq.trans (by rw [← hdF]), h2, h3, h4, h5, h6⟩
  · obtain ⟨_, hpb⟩ := hbwd hdB
    obtain ⟨q', heq, h2, h3, h4, h5, h6⟩ :=
      next_bwd_sound hs hq hdB hsk hpb hv
    exact ⟨q', heq, h2, h3, h4, h5, h6⟩

/-- `prev` from any emitted state lands Backward on an emittable record with
the largest user key strictly below the saved key. -/
theorem prev_sound_of_good {it : RegionCacheIterator}
    (hs : SortedEntries it.entries) (hgood : GoodValid it)
    (hv : it.prev.valid = true) :
    ∃ t R, it.prev =
        { it with direction := .Backward,
                  saved_user_key := (entAt it.entries t).userKey,
                  saved_value := some (entAt it.entries t).val,
                  valid := true, pos := R } ∧
      t < it.entries.length ∧
      emitIdx it.entries it.sequence_number t ∧
      bytesLe it.lower_bound (entAt it.entries t).userKey = true ∧
      bytesLt (entAt it.entries t).userKey it.saved_user_key = true ∧
      posBelowKey it.entries (entAt it.entries t).userKey R ∧
      ∀ r, t < r → ¬ (emitIdx it.entries it.sequence_number r ∧
        bytesLt (entAt it.entries r).userKey it.saved_user_key = true) := by
  obtain ⟨hdirs, q, hq, hsk, hemit, hlow, hup, hfwd, hbwd⟩ := hgood
  rcases hdirs with hdF | hdB
  · obtain ⟨hpos, _⟩ := hfwd hdF
    obtain ⟨t, R, heq, h1, h2, h3, h4, h5, h6⟩ :=
      prev_fwd_sound hs hq hdF hpos hsk hv
    exact ⟨t, R, heq, h1, h2, h3, h4, h5, h6⟩
  · obtain ⟨_, hpb⟩ := hbwd hdB
    obtain ⟨t, R, heq, h1, h2, h3, h4, h5, h6⟩ :=
      prev_bwd_sound hs hq hdB hsk hpb hv
    exact ⟨t, R, heq.trans (by rw [← hdB]), h1, h2, h3, h4, h5, h6⟩

/-- Every operation that ends valid rests its saved key on an emittable
(newest-visible `Value`) record of the store. -/
theorem stepIter_emits {it : RegionCacheIterator} {op : IterOp}
    (hs : SortedEntries it.entries) (hgood : GoodValid it)
    (hv : (stepIter it op).valid = true) :
    ∃ q, q < it.entries.length ∧
      emitIdx it.entries it.sequence_number q ∧
      (stepIter it op).saved_user_key = (entAt it.entries q).userKey := by
  cases op with
  | seek k =>
    dsimp only [stepIter] at hv ⊢
    rw [RegionCacheIterator.seek] at hv ⊢
    dsimp only at hv ⊢
    by_cases hupf : it.usePfx = true
    · rw [if_pos hupf] at hv ⊢
      obtain ⟨q, heq, h1, h2, _, _⟩ := @seek_internal_sound
        { it with direction := .Forward, pfx := some (sliceTransform k) }
        _ hs hv
      rw [heq]
      exact ⟨q, h1, h2, rfl⟩
    · rw [if_neg hupf] at hv ⊢
      obtain ⟨q, heq, h1, h2, _, _⟩ := @seek_internal_sound
        { it with direction := .Forward } _ hs hv
      rw [heq]
      exact ⟨q, h1, h2, rfl⟩
  | seek_for_prev k =>
    dsimp only [stepIter] at hv ⊢
    rw [RegionCacheIterator.seek_for_prev] at hv ⊢
    dsimp only at hv ⊢
    by_cases hupf : it.usePfx = true
    · rw [if_pos hupf] at hv ⊢
      dsimp only at hv ⊢
      by_cases hcl : bytesLt it.upper_bound k = true
      · rw [if_pos hcl] at hv ⊢
        obtain ⟨t, R, heq, h1, h2, _, _, _⟩ := @sfp_internal_sound
          { it with direction := .Backward, pfx := some (sliceTransform k) }
          _ _ hs hv
        rw [heq]
        exact ⟨t, h1, h2, rfl⟩
      · rw [if_neg hcl] at hv ⊢
        obtain ⟨t, R, heq, h1, h2, _, _, _⟩ := @sfp_internal_sound
          { it with direction := .Backward, pfx := some (sliceTransform k) }
          _ _ hs hv
        rw [heq]
        exact ⟨t, h1, h2, rfl⟩
    · rw [if_neg hupf] at hv ⊢
      dsimp only at hv ⊢
      by_cases hcl : bytesLt it.upper_bound k = true
      · rw [if_pos hcl] at hv ⊢
        obtain ⟨t, R, heq, h1, h2, _, _, _⟩ := @sfp_internal_sound
          { it with direction := .Backward } _ _ hs hv
        rw [heq]
        exact ⟨t, h1, h2, rfl⟩
      · rw [if_neg hcl] at hv ⊢
        obtain ⟨t, R, heq, h1, h2, _, _, _⟩ := @sfp_internal_sound
          { it with direction := .Backward } _ _ hs hv
        rw [heq]
        exact ⟨t, h1, h2, rfl⟩
  | seek_to_first =>
    dsimp only [stepIter] at hv ⊢
    rw [RegionCacheIterator.seek_to_first] at hv ⊢
    obtain ⟨q, heq, h1, h2, _, _⟩ := @seek_internal_sound
      { it with direction := .Forward } _ hs hv
    rw [heq]
    exact ⟨q, h1, h2, rfl⟩
  | seek_to_last =>
    dsimp only [stepIter] at hv ⊢
    rw [RegionCacheIterator.seek_to_last] at hv ⊢
    obtain ⟨t, R, heq, h1, h2, _, _, _⟩ := @sfp_internal_sound
      { it with direction := .Backward } _ _ hs hv
    rw [heq]
    exact ⟨t, h1, h2, rfl⟩
  | next =>
    dsimp only [stepIter] at hv ⊢
    obtain ⟨q', heq, h1, h2, _, _, _⟩ := next_sound_of_good hs hgood hv
    rw [heq]
    exact ⟨q', h1, h2, rfl⟩
  | prev =>
    dsimp only [stepIter] at hv ⊢
    obtain ⟨t, R, heq, h1, h2, _, _, _, _⟩ := prev_sound_of_good hs hgood hv
    rw [heq]
    exact ⟨t, h1, h2, rfl⟩

/-- A small concrete store: `[0]` holds a live value, `[1]` is
deletion-topped (its older version is shadowed), `[2]` holds a live value. -/
def wEntries : List Entry :=
  [⟨[0], 1, .value, [7]⟩, ⟨[1], 2, .deletion, []⟩, ⟨[1], 1, .value, [8]⟩,
   ⟨[2], 3, .value, [9]⟩]

/-- A concrete forward iterator resting on the emitted record `[0]`. -/
def wIt : RegionCacheIterator :=
  { entries := wEntries, pos := some 0, valid := true, lower_bound := [],
    upper_bound := [9], sequence_number := 5, saved_user_key := [0],
    saved_value := none, usePfx := false, pfx := none,
    direction := .Forward }

theorem wIt_good : GoodValid wIt :=
  ⟨Or.inl rfl, 0, by decide, by decide, by decide, by decide, by decide,
   fun _ => ⟨rfl, by decide⟩, fun h => absurd h (by decide)⟩

/-- C2: Tombstone transparency.  From any emitted iterator state on a sorted
store, every operation among `seek`, `seek_for_prev`, `seek_to_first`,
`seek_to_last`, `next` and `prev` that ends valid rests its current key on a
record that is the newest visible version of its user key *and* a `Value`;
hence a user key whose newest visible record is a `Deletion` is never
emitted by any of the six operations. -/
theorem C2_tombstone_transparency (it : RegionCacheIterator) (op : IterOp)
    (hs : SortedEntries it.entries) (hval : it.valid = true)
    (hgood : GoodValid it)
    (hv : (stepIter it op).valid = true) :
    ∃ q, q < it.entries.length ∧
      emitIdx it.entries it.sequence_number q ∧
      (stepIter it op).key = (entAt it.entries q).userKey ∧
      topVisible it.entries it.sequence_number ((stepIter it op).key)
        = some (entAt it.entries q) ∧
      (entAt it.entries q).vType = .value := by
  obtain ⟨q, h1, h2, h3⟩ := stepIter_emits hs hgood hv
  refine ⟨q, h1, h2, h3, ?_, h2.2⟩
  rw [show (stepIter it op).key = (entAt it.entries q).userKey from h3]
  exact topVisIdx_topVisible h2.1

/-- Concrete check of C2: seeking the deletion-topped key `[1]` emits `[2]`
instead. -/
theorem C2_tombstone_transparency_witness :
    ∃ q, q < wIt.entries.length ∧
      emitIdx wIt.entries wIt.sequence_number q ∧
      (stepIter wIt (.seek [1])).key = (entAt wIt.entries q).userKey ∧
      topVisible wIt.entries wIt.sequence_number
        ((stepIter wIt (.seek [1])).key) = some (entAt wIt.entries q) ∧
      (entAt wIt.entries q).vType = .value :=
  C2_tombstone_transparency wIt (.seek [1]) (by decide) (by decide)
    wIt_good (by decide)

/-- C6: Strict monotonicity without duplicates.  Within a single iterator in
an emitted state, a successful `next` returns a user key strictly greater
than the previously returned key, and a successful `prev` returns one
strictly smaller; in particular the same logical user key is never returned
twice in a row in the same direction, even when it has several MVCC
versions in the store. -/
theorem C6_strict_monotone_no_duplicates (it : RegionCacheIterator)
    (hs : SortedEntries it.entries) (hval : it.valid = true)
    (hgood : GoodValid it) :
    (it.next.valid = true → bytesLt it.key it.next.key = true) ∧
    (it.prev.valid = true → bytesLt it.prev.key it.key = true) := by
  constructor
  · intro hv
    obtain ⟨q', heq, _, _, hgt, _, _⟩ := next_sound_of_good hs hgood hv
    show bytesLt it.saved_user_key (it.next).saved_user_key = true
    rw [heq]
    exact hgt
  · intro hv
    obtain ⟨t, R, heq, _, _, _, hlt, _, _⟩ := prev_sound_of_good hs hgood hv
    show bytesLt (it.prev).saved_user_key it.saved_user_key = true
    rw [heq]
    exact hlt

/-- Concrete check of C6 on the iterator resting on `[0]`. -/
theorem C6_strict_monotone_no_duplicates_witness :
    (wIt.next.valid = true → bytesLt wIt.key wIt.next.key = true) ∧
    (wIt.prev.valid = true → bytesLt wIt.prev.key wIt.key = true) :=
  C6_strict_monotone_no_duplicates wIt (by decide) (by decide) wIt_good

/-- C7: Direction-reversal idempotence (no prefix extractor).  From an
emitted state with current key strictly below the upper bound: a successful
`next` followed by `prev` returns to the same key with the same value, a
successful `prev` followed by `next` likewise, and `next` while in
`Backward` state lands on a visible user key strictly greater than the
saved key. -/
theorem C7_direction_reversal_idempotence (it : RegionCacheIterator)
    (hs : SortedEntries it.entries) (hval : it.valid = true)
    (hgood : GoodValid it)
    (hupfx : it.usePfx = false) (hpfx : it.pfx = none)
    (hub : bytesLt it.key it.upper_bound = true) :
    (it.next.valid = true →
      it.next.prev.valid = true ∧ it.next.prev.key = it.key ∧
      it.next.prev.value = it.value) ∧
    (it.prev.valid = true →
      it.prev.next.valid = true ∧ it.prev.next.key = it.key ∧
      it.prev.next.value = it.value) ∧
    (it.direction = .Backward → it.next.valid = true →
      bytesLt it.key it.next.key = true) := by
  have hgood' := hgood
  obtain ⟨hdirs, q, hq, hsk, hemit, hlow, huple, hfwd, hbwd⟩ := hgood'
  refine ⟨?_, ?_, ?_⟩
  · -- next then prev comes back to the current record
    intro hv
    obtain ⟨q', heqN, hq', hemit', hgt, hup', hmin⟩ :=
      next_sound_of_good hs hgood hv
    have hgt' : bytesLt (entAt it.entries q).userKey
        (entAt it.entries q').userKey = true := by
      rw [← hsk]; exact hgt
    obtain ⟨R, heqP⟩ := @prev_fwd_exact
      { it with direction := .Forward, pos := some q', valid := true,
                saved_user_key := (entAt it.entries q').userKey }
      q' q hs hq' rfl rfl rfl hpfx hemit
      (by
        show bytesLt (entAt it.entries q).userKey
          (entAt it.entries q').userKey = true
        exact hgt')
      hlow
      (by
        intro r hrq
        intro ⟨hre, hrlt⟩
        have hrlt' : bytesLt (entAt it.entries r).userKey
            (entAt it.entries q').userKey = true := hrlt
        have hrq' : r < q' := by
          by_contra hc
          push_neg at hc
          have h1 := sorted_uk_le hs hc hre.1.1
          have h2 := bytesLt_of_lt_of_le hrlt' h1
          rw [bytesLt_irrefl] at h2
          exact Bool.noConfusion h2
        refine hmin r hrq' ⟨hre, ?_⟩
        rcases bytesLe_iff.mp (sorted_uk_le hs (Nat.le_of_lt hrq)
            hre.1.1) with hc | hc
        · rw [hsk]; exact hc
        · exact absurd (emitIdx_unique hemit.1 hre.1 hc) (by omega))
    rw [heqN, heqP]
    refine ⟨rfl, hsk.symm, ?_⟩
    rcases hdirs with hdF | hdB
    · simp [RegionCacheIterator.value, hdF, (hfwd hdF).1]
    · simp [RegionCacheIterator.value, hdB, (hbwd hdB).1]
  · -- prev then next comes back to the current record
    intro hv
    obtain ⟨t, R, heqP, ht, hemitT, hlowT, hltT, hpbT, hmaxT⟩ :=
      prev_sound_of_good hs hgood hv
    have hlt2 : bytesLt (entAt it.entries t).userKey
        (entAt it.entries q).userKey = true := by
      rw [← hsk]; exact hltT
    have hub' : bytesLt (entAt it.entries q).userKey it.upper_bound
        = true := by
      rw [← hsk]; exact hub
    have heqQ := @next_bwd_exact
      { it with direction := .Backward,
                saved_user_key := (entAt it.entries t).userKey,
                saved_value := some (entAt it.entries t).val,
                valid := true, pos := R }
      t q hs ht rfl rfl hpbT hpfx hemit
      (by
        show bytesLt (entAt it.entries t).userKey
          (entAt it.entries q).userKey = true
        exact hlt2)
      (by
        show bytesLt (entAt it.entries q).userKey it.upper_bound = true
        exact hub')
      (by
        intro r hr
        intro ⟨hre, hrlt⟩
        exact hmaxT r hr ⟨hre, by rw [hsk]; exact hrlt⟩)
    rw [heqP, heqQ]
    refine ⟨rfl, hsk.symm, ?_⟩
    rcases hdirs with hdF | hdB
    · simp [RegionCacheIterator.value, hdF, (hfwd hdF).1]
    · simp [RegionCacheIterator.value, hdB, (hbwd hdB).1]
  · -- next from Backward moves strictly above the saved key
    intro hdB hv
    obtain ⟨_, hpb⟩ := hbwd hdB
    obtain ⟨q', heq, _, _, hgt, _, _⟩ := next_bwd_sound hs hq hdB hsk hpb hv
    show bytesLt it.saved_user_key (it.next).saved_user_key = true
    rw [heq]
    exact hgt

/-- Concrete check of C7 on the iterator resting on `[0]`. -/
theorem C7_direction_reversal_idempotence_witness :
    (wIt.next.valid = true →
      wIt.next.prev.valid = true ∧ wIt.next.prev.key = wIt.key ∧
      wIt.next.prev.value = wIt.value) ∧
    (wIt.prev.valid = true →
      wIt.prev.next.valid = true ∧ wIt.prev.next.key = wIt.key ∧
      wIt.prev.next.value = wIt.value) ∧
    (wIt.direction = .Backward → wIt.next.valid = true →
      bytesLt wIt.key wIt.next.key = true) :=
  C7_direction_reversal_idempotence wIt (by decide) (by decide) wIt_good
    (by decide) (by decide) (by decide)

/-- Iterator options with one record sitting exactly at the upper bound:
the input on which `seek_for_prev` violates the exclusive upper bound. -/
def c4It : RegionCacheIterator :=
  { entries := [⟨[1], 1, .value, [10]⟩], pos := none, valid := false,
    lower_bound := [0], upper_bound := [1], sequence_number := 5,
    saved_user_key := [], saved_value := none, usePfx := false, pfx := none,
    direction := .Uninit }

/-- C4: the bound discipline is violated by the code.  The struct contract
(read.rs lines 230-231) declares the upper bound exclusive, but
`seek_for_prev(key)` (read.rs lines 559-581) clamps only when
`key > upper_bound` holds *strictly*, so seeking for the upper bound itself
emits a record whose user key equals the upper bound: on a store holding the
single record `([1], 1, Value, [10])` with bounds `[[0], [1])`,
`seek_for_prev [1]` ends valid with current key `[1] = upper_bound`. -/
theorem C4_seek_for_prev_emits_upper_bound :
    (stepIter c4It (.seek_for_prev [1])).valid = true ∧
    (stepIter c4It (.seek_for_prev [1])).key = c4It.upper_bound := by
  decide

end IME
